import Mathlib

/-!
Verification of the Memexia knowledge-graph engine against its
natural-language specification.

The development shallowly embeds the Rust sources:

* strings are `List Char` (`Str`), so that the slicing and splitting
  functions of `str` can be mirrored faithfully and reasoned about by
  induction;
* `f64` values that the program parses from text are modelled as exact
  rationals (`Rat`); every value appearing in the claims is exactly
  representable, and clamping commutes with rounding;
* the Oxigraph quad store is a `List Quad` with set-insertion semantics
  (`Store::insert` is a no-op on an already-present quad);
* the filesystem used by the snapshot store is an association list from
  path strings to contents, with last-write-wins lookup;
* SHA-256 is implemented in full (the Rust code calls the `sha2` crate).

Each claim of the specification is settled by one theorem near the end of
the file.
-/

/-- Rust strings, embedded as lists of characters. -/
abbrev Str := List Char

/-- Convert a Lean string literal to the embedded string type. -/
def str (s : String) : Str := s.data

/-- The newline character. -/
def nlChar : Char := Char.ofNat 10

/-- The carriage-return character. -/
def crChar : Char := Char.ofNat 13

/-- The apostrophe character (appears in the IRI-safe character set). -/
def aposChar : Char := Char.ofNat 39

/-- Rust `str::split(sep)` for a single-character separator: splits into the
maximal run of separator-free segments; the empty string yields `[""]`,
a trailing separator yields a trailing `""`. -/
def splitChar (sep : Char) : Str → List Str
  | [] => [[]]
  | c :: rest =>
    if c = sep then [] :: splitChar sep rest
    else
      match splitChar sep rest with
      | [] => [[c]]
      | s :: ss => (c :: s) :: ss

/-- `splitChar` never returns an empty list of segments. -/
theorem splitChar_ne_nil (sep : Char) (s : Str) : splitChar sep s ≠ [] := by
  cases s with
  | nil => simp [splitChar]
  | cons c rest =>
    simp only [splitChar]
    split
    · simp
    · cases splitChar sep rest <;> simp

/-- Rust `s.find(sep)` followed by slicing into `s[..i]` and `s[i+1..]`:
returns the part before the first occurrence of `sep` and the part after
it, or `none` when `sep` does not occur. -/
def splitOnceChar (sep : Char) : Str → Option (Str × Str)
  | [] => none
  | c :: rest =>
    if c = sep then some ([], rest)
    else (splitOnceChar sep rest).map fun p => (c :: p.1, p.2)

/-- Rust `str::split_once(pat)` for a multi-character pattern: splits at the
first occurrence of `pat`. -/
def splitOnceStr (pat : Str) : Str → Option (Str × Str)
  | [] => if pat = [] then some ([], []) else none
  | c :: rest =>
    if pat.isPrefixOf (c :: rest) then some ([], (c :: rest).drop pat.length)
    else (splitOnceStr pat rest).map fun p => (c :: p.1, p.2)

/-- The whitespace predicate used by Rust `char::is_whitespace`, restricted
to the ASCII range (the Unicode white-space code points above ASCII play no
role in any claim). -/
def rustWs (c : Char) : Bool :=
  c = ' ' || c = Char.ofNat 9 || c = nlChar || c = Char.ofNat 11 ||
  c = Char.ofNat 12 || c = crChar

/-- Rust `str::trim`: removes leading and trailing whitespace. -/
def trimStr (s : Str) : Str :=
  ((s.dropWhile rustWs).reverse.dropWhile rustWs).reverse

/-- A boolean prefix test implies the prefix relation. -/
theorem isPrefixOf_prefix : ∀ {p s : Str}, p.isPrefixOf s = true → p <+: s
  | [], _, _ => List.nil_prefix
  | _ :: _, [], h => by simp [List.isPrefixOf] at h
  | a :: as, b :: bs, h => by
    simp only [List.isPrefixOf, Bool.and_eq_true, beq_iff_eq] at h
    obtain ⟨rfl, h2⟩ := h
    obtain ⟨t, rfl⟩ := isPrefixOf_prefix h2
    exact ⟨t, rfl⟩

/-- Recursion core of `replaceAll`, on fuel.  With `fuel ≥ s.length` and a
non-empty pattern each step consumes at least one character and exactly one
unit of fuel, so the fuel-exhausted arm is unreachable. -/
def replAux (pat repl : Str) : Nat → Str → Str
  | _, [] => []
  | 0, s => s
  | fuel + 1, c :: rest =>
    if pat.isPrefixOf (c :: rest) then
      repl ++ replAux pat repl fuel ((c :: rest).drop pat.length)
    else
      c :: replAux pat repl fuel rest

/-- Rust `str::replace(pat, repl)`: replaces every non-overlapping occurrence
of `pat`, scanning left to right.  An empty pattern leaves the string
unchanged (the program never calls it with an empty pattern). -/
def replaceAll (pat repl : Str) (s : Str) : Str :=
  if pat = [] then s else replAux pat repl s.length s

/-- Rust `str::contains(c)` for a single character. -/
def containsChar (c : Char) (s : Str) : Bool := s.any (· = c)

/-- Rust `str::starts_with(pre)`. -/
def startsWithStr (pre s : Str) : Bool := pre.isPrefixOf s

/-- ASCII lowercasing, the effect of Rust `str::to_lowercase` on the ASCII
relation names and predicates this program feeds it. -/
def lowerStr (s : Str) : Str := s.map Char.toLower

/-- UTF-8 encoding of one character, as byte values (Rust `char::encode_utf8`). -/
def utf8Char (c : Char) : List Nat :=
  let n := c.toNat
  if n < 128 then [n]
  else if n < 2048 then [192 + n / 64, 128 + n % 64]
  else if n < 65536 then [224 + n / 4096, 128 + (n / 64) % 64, 128 + n % 64]
  else [240 + n / 262144, 128 + (n / 4096) % 64, 128 + (n / 64) % 64, 128 + n % 64]

/-- UTF-8 encoding of a string, as byte values (Rust `str::as_bytes`). -/
def utf8Str (s : Str) : List Nat := s.flatMap utf8Char

/-- Rust `str::len()`: the length in UTF-8 bytes. -/
def utf8Len (s : Str) : Nat := (utf8Str s).length

/-- One hexadecimal digit, uppercase (used by `format!("{:02X}", byte)`). -/
def hexDigitU (n : Nat) : Char :=
  if n < 10 then Char.ofNat (48 + n) else Char.ofNat (55 + n)

/-- One hexadecimal digit, lowercase (used by `hex::encode`). -/
def hexDigitL (n : Nat) : Char :=
  if n < 10 then Char.ofNat (48 + n) else Char.ofNat (87 + n)

/-- A byte as two uppercase hex digits. -/
def byteHexU (b : Nat) : Str := [hexDigitU (b / 16), hexDigitU (b % 16)]

/-- A byte as two lowercase hex digits. -/
def byteHexL (b : Nat) : Str := [hexDigitL (b / 16), hexDigitL (b % 16)]

/-- `hex::encode`: a byte sequence as lowercase hex. -/
def hexEncode (bs : List Nat) : Str := bs.flatMap byteHexL

/-- The characters that `encode_iri_component` leaves unencoded besides
ASCII alphanumerics: the string constant `-_.~!$&'()*+,;=:@/` of the source. -/
def iriSafeExtra : Str :=
  ['-', '_', '.', '~', '!', '$', '&', aposChar, '(', ')', '*', '+', ',', ';',
   '=', ':', '@', '/']

/-- `encode_iri_component` (identical in `indexer.rs`, `parser.rs` and
`wiki_link.rs`): percent-encodes every character that is not ASCII
alphanumeric and not in the safe set, using the uppercase hex of its UTF-8
bytes. -/
def encodeIriComponent (s : Str) : Str :=
  s.flatMap fun c =>
    if c.isAlphanum || iriSafeExtra.contains c then [c]
    else (utf8Char c).flatMap fun b => '%' :: byteHexU b

/-- Digit run at the front of a string: `(digits, rest)`. -/
def spanDigits (s : Str) : Str × Str := (s.takeWhile Char.isDigit, s.dropWhile Char.isDigit)

/-- Numeric value of a digit run. -/
def digitsVal (ds : Str) : Nat := ds.foldl (fun a c => a * 10 + (c.toNat - 48)) 0

/-- The exact value of a parsed decimal: optional negation of
`intDigits.fracDigits`, scaled by the power-of-ten exponent. -/
def decValue (neg : Bool) (ip fp : Str) (ex : Int) : Rat :=
  let base : Rat := (digitsVal ip : Rat) + (digitsVal fp : Rat) / (10 : Rat) ^ fp.length
  (if neg then -base else base) * (10 : Rat) ^ ex

/-- The structural part of `f64::from_str` for the finite decimal grammar
`[+|-] digits [. digits] [e|E [+|-] digits]` (at least one mantissa digit
required; the special forms `inf`/`NaN` are outside the model since no claim
involves them): sign, integer digits, fraction digits, exponent. -/
def parseF64Core (s : Str) : Option (Bool × Str × Str × Int) :=
  let signRest : Bool × Str :=
    match s with
    | '+' :: rest => (false, rest)
    | '-' :: rest => (true, rest)
    | _ => (false, s)
  let neg := signRest.1
  let p2 := spanDigits signRest.2
  let intPart := p2.1
  let fracRest : Str × Str :=
    match p2.2 with
    | '.' :: rest => spanDigits rest
    | _ => ([], p2.2)
  let fracPart := fracRest.1
  if intPart = [] ∧ fracPart = [] then none
  else
    match fracRest.2 with
    | [] => some (neg, intPart, fracPart, 0)
    | e :: rest =>
      if e = 'e' ∨ e = 'E' then
        let expRest : Int × Str :=
          match rest with
          | '+' :: r => (1, r)
          | '-' :: r => (-1, r)
          | _ => (1, rest)
        let p3 := spanDigits expRest.2
        if p3.1 = [] ∨ p3.2 ≠ [] then none
        else some (neg, intPart, fracPart, expRest.1 * (digitsVal p3.1 : Int))
      else none

/-- Rust `f64::from_str`, modelled on exact rationals: every value a claim
mentions is exactly representable, and clamping commutes with the rounding
of parsing. -/
def parseF64 (s : Str) : Option Rat :=
  (parseF64Core s).map fun p => decValue p.1 p.2.1 p.2.2.1 p.2.2.2

/-- Rust `f64::clamp(lo, hi)`: `lo` when below, `hi` when above, else itself. -/
def clampRust (v lo hi : Rat) : Rat :=
  if v < lo then lo else if v > hi then hi else v

/-! ## SHA-256 (the `sha2` crate dependency of `core/object.rs`)

`hash_content` in `src/core/object.rs` is `hex::encode(Sha256::digest(bytes))`.
The hash itself lives in the external `sha2` crate; it is embedded here as a
complete implementation of FIPS 180-4 SHA-256 over byte lists. -/

/-- Reduce modulo 2^32. -/
def m32 (x : Nat) : Nat := x % 4294967296

/-- Right rotation of a 32-bit word by `n` places. -/
def rotr32 (n x : Nat) : Nat := x / 2 ^ n + x % 2 ^ n * 2 ^ (32 - n)

/-- Bitwise complement of a 32-bit word. -/
def not32 (x : Nat) : Nat := Nat.xor 4294967295 x

/-- SHA-256 `Ch` function. -/
def shaCh (x y z : Nat) : Nat := Nat.xor (Nat.land x y) (Nat.land (not32 x) z)

/-- SHA-256 `Maj` function. -/
def shaMaj (x y z : Nat) : Nat :=
  Nat.xor (Nat.xor (Nat.land x y) (Nat.land x z)) (Nat.land y z)

/-- SHA-256 `Σ0`. -/
def shaS0 (x : Nat) : Nat := Nat.xor (Nat.xor (rotr32 2 x) (rotr32 13 x)) (rotr32 22 x)

/-- SHA-256 `Σ1`. -/
def shaS1 (x : Nat) : Nat := Nat.xor (Nat.xor (rotr32 6 x) (rotr32 11 x)) (rotr32 25 x)

/-- SHA-256 `σ0`. -/
def shas0 (x : Nat) : Nat := Nat.xor (Nat.xor (rotr32 7 x) (rotr32 18 x)) (x / 2 ^ 3)

/-- SHA-256 `σ1`. -/
def shas1 (x : Nat) : Nat := Nat.xor (Nat.xor (rotr32 17 x) (rotr32 19 x)) (x / 2 ^ 10)

/-- The 64 SHA-256 round constants. -/
def sha256K : List Nat :=
  [1116352408, 1899447441, 3049323471, 3921009573, 961987163, 1508970993,
   2453635748, 2870763221, 3624381080, 310598401, 607225278, 1426881987,
   1925078388, 2162078206, 2614888103, 3248222580, 3835390401, 4022224774,
   264347078, 604807628, 770255983, 1249150122, 1555081692, 1996064986,
   2554220882, 2821834349, 2952996808, 3210313671, 3336571891, 3584528711,
   113926993, 338241895, 666307205, 773529912, 1294757372, 1396182291,
   1695183700, 1986661051, 2177026350, 2456956037, 2730485921, 2820302411,
   3259730800, 3345764771, 3516065817, 3600352804, 4094571909, 275423344,
   430227734, 506948616, 659060556, 883997877, 958139571, 1322822218,
   1537002063, 1747873779, 1955562222, 2024104815, 2227730452, 2361852424,
   2428436474, 2756734187, 3204031479, 3329325298]

/-- The eight SHA-256 working variables. -/
structure ShaState where
  a : Nat
  b : Nat
  c : Nat
  d : Nat
  e : Nat
  f : Nat
  g : Nat
  hh : Nat

/-- The SHA-256 initial hash value. -/
def shaInit : ShaState :=
  ⟨1779033703, 3144134277, 1013904242, 2773480762, 1359893119, 2600822924,
   528734635, 1541459225⟩

/-- Four big-endian bytes into one 32-bit word, repeated over a list. -/
def bytesToWords : List Nat → List Nat
  | b0 :: b1 :: b2 :: b3 :: rest =>
    (b0 * 16777216 + b1 * 65536 + b2 * 256 + b3) :: bytesToWords rest
  | _ => []

/-- One message-schedule extension step: appends word `W[n]` from
`W[n-2], W[n-7], W[n-15], W[n-16]`. -/
def scheduleStep (w : List Nat) : List Nat :=
  let n := w.length
  w ++ [m32 (shas1 (w.getD (n - 2) 0) + w.getD (n - 7) 0 +
             shas0 (w.getD (n - 15) 0) + w.getD (n - 16) 0)]

/-- Extend the 16 block words to the full 64-entry message schedule. -/
def sha256Schedule (ws : List Nat) : List Nat := Nat.repeat scheduleStep 48 ws

/-- One SHA-256 compression round for a `(constant, schedule word)` pair. -/
def shaRound (st : ShaState) (kw : Nat × Nat) : ShaState :=
  let t1 := m32 (st.hh + shaS1 st.e + shaCh st.e st.f st.g + kw.1 + kw.2)
  let t2 := m32 (shaS0 st.a + shaMaj st.a st.b st.c)
  ⟨m32 (t1 + t2), st.a, st.b, st.c, m32 (st.d + t1), st.e, st.f, st.g⟩

/-- Process one 64-byte block. -/
def shaBlock (st : ShaState) (block : List Nat) : ShaState :=
  let ws := sha256Schedule (bytesToWords block)
  let r := List.foldl shaRound st (List.zip sha256K ws)
  ⟨m32 (st.a + r.a), m32 (st.b + r.b), m32 (st.c + r.c), m32 (st.d + r.d),
   m32 (st.e + r.e), m32 (st.f + r.f), m32 (st.g + r.g), m32 (st.hh + r.hh)⟩

/-- SHA-256 message padding: `0x80`, zeros to 56 mod 64, then the bit length
as eight big-endian bytes. -/
def sha256Pad (msg : List Nat) : List Nat :=
  let bitLen := 8 * msg.length
  let padZeros := (119 - msg.length % 64) % 64
  msg ++ 128 :: List.replicate padZeros 0 ++
    [bitLen / 72057594037927936 % 256, bitLen / 281474976710656 % 256,
     bitLen / 1099511627776 % 256, bitLen / 4294967296 % 256,
     bitLen / 16777216 % 256, bitLen / 65536 % 256, bitLen / 256 % 256,
     bitLen % 256]

/-- Recursion core of `chunks64`, on fuel: each step consumes at least one
byte and one unit of fuel, so with `fuel ≥ l.length` the fuel-exhausted arm
is unreachable. -/
def chunks64Aux : Nat → List Nat → List (List Nat)
  | _, [] => []
  | 0, _ => []
  | fuel + 1, b :: rest => (b :: rest).take 64 :: chunks64Aux fuel ((b :: rest).drop 64)

/-- Split a byte list into 64-byte chunks. -/
def chunks64 (l : List Nat) : List (List Nat) := chunks64Aux l.length l

/-- A 32-bit word as four big-endian bytes. -/
def wordBytes (x : Nat) : List Nat :=
  [x / 16777216 % 256, x / 65536 % 256, x / 256 % 256, x % 256]

/-- The digest bytes of a final state. -/
def stateBytes (st : ShaState) : List Nat :=
  wordBytes st.a ++ wordBytes st.b ++ wordBytes st.c ++ wordBytes st.d ++
  wordBytes st.e ++ wordBytes st.f ++ wordBytes st.g ++ wordBytes st.hh

/-- SHA-256 of a byte sequence: 32 digest bytes. -/
def sha256Bytes (msg : List Nat) : List Nat :=
  stateBytes (List.foldl shaBlock shaInit (chunks64 (sha256Pad msg)))

/-- `hash_content` from `src/core/object.rs`: lowercase hex of the SHA-256
digest of the bytes. -/
def hashContent (content : List Nat) : Str := hexEncode (sha256Bytes content)

/-- A digest always has 32 bytes. -/
theorem sha256Bytes_length (msg : List Nat) : (sha256Bytes msg).length = 32 := by
  simp [sha256Bytes, stateBytes, wordBytes]

/-- Lowercase hex doubles the length. -/
theorem hexEncode_length (bs : List Nat) : (hexEncode bs).length = 2 * bs.length := by
  induction bs with
  | nil => simp [hexEncode]
  | cons b t ih =>
    simp [hexEncode, byteHexL] at ih ⊢
    omega

/-- A content hash is 64 characters long. -/
theorem hashContent_length (content : List Nat) : (hashContent content).length = 64 := by
  simp [hashContent, hexEncode_length, sha256Bytes_length]

/-! ## The quad-store model (`storage/oxigraph.rs`, `storage/node.rs`,
`storage/edge.rs`)

The Oxigraph `Store` is a set of quads in the default graph; inserting an
already-present quad is a no-op.  Subjects and predicates are stored here
without the angle brackets that `to_string` adds and `clean_iri` strips, so
`clean_iri` is the identity of the model.  Timestamps are carried as their
RFC 3339 serialisation strings and supplied as explicit parameters wherever
the source calls `Utc::now()`. -/

/-- An RDF term in object position: a named node or a literal. -/
inductive Obj where
  | iri (v : Str)
  | lit (v : Str)
deriving DecidableEq

/-- One quad of the default graph. -/
structure Quad where
  subj : Str
  pred : Str
  obj : Obj
deriving DecidableEq

/-- `Store::insert`: set semantics, insertion order kept for iteration. -/
def insertQuad (q : Quad) (s : List Quad) : List Quad :=
  if q ∈ s then s else s ++ [q]

/-- Insert a list of quads in order. -/
def insertQuads (qs : List Quad) (s : List Quad) : List Quad :=
  qs.foldl (fun acc q => insertQuad q acc) s

theorem mem_insertQuad {a q : Quad} {s : List Quad} :
    a ∈ insertQuad q s ↔ a ∈ s ∨ a = q := by
  unfold insertQuad
  split
  · rename_i h
    constructor
    · exact Or.inl
    · rintro (ha | rfl)
      · exact ha
      · exact h
  · simp [List.mem_append]

theorem insertQuad_of_mem {q : Quad} {s : List Quad} (h : q ∈ s) :
    insertQuad q s = s := by simp [insertQuad, h]

theorem mem_insertQuads {a : Quad} {qs s : List Quad} :
    a ∈ insertQuads qs s ↔ a ∈ s ∨ a ∈ qs := by
  induction qs generalizing s with
  | nil => simp [insertQuads]
  | cons q t ih =>
    simp only [insertQuads, List.foldl_cons] at ih ⊢
    rw [ih, mem_insertQuad]
    simp only [List.mem_cons]
    tauto

theorem insertQuads_of_subset {qs s : List Quad} (h : ∀ q ∈ qs, q ∈ s) :
    insertQuads qs s = s := by
  induction qs generalizing s with
  | nil => rfl
  | cons q t ih =>
    simp only [insertQuads, List.foldl_cons]
    rw [insertQuad_of_mem (h q (by simp))]
    exact ih fun a ha => h a (by simp [ha])

/-- The seven node types of `storage/node.rs`. -/
inductive MNodeType where
  | concept | question | evidence | resource | person | event | meta
deriving DecidableEq

/-- The `memexia:<Type>` IRI that `add_node` writes for a node type. -/
def nodeTypeIri : MNodeType → Str
  | .concept => str "memexia:Concept"
  | .question => str "memexia:Question"
  | .evidence => str "memexia:Evidence"
  | .resource => str "memexia:Resource"
  | .person => str "memexia:Person"
  | .event => str "memexia:Event"
  | .meta => str "memexia:Meta"

/-- A node record (`Node` of `storage/node.rs`; the unused `metadata` map is
omitted, timestamps are RFC 3339 strings). -/
structure MNode where
  id : Str
  ntype : MNodeType
  title : Str
  content : Option Str
  tags : List Str
  createdAt : Str
  updatedAt : Str
deriving DecidableEq

/-- `Node::new(id, node_type, title)` at the given current time. -/
def mnodeNew (id : Str) (nt : MNodeType) (title : Str) (tNow : Str) : MNode :=
  ⟨id, nt, title, none, [], tNow, tNow⟩

/-- The quads `OxigraphStorage::add_node` inserts, in source order: type,
title (when non-empty), content (when present), one per tag, createdAt,
updatedAt. -/
def nodeQuads (n : MNode) : List Quad :=
  ⟨n.id, str "rdf:type", .iri (nodeTypeIri n.ntype)⟩ ::
  ((if n.title ≠ [] then [⟨n.id, str "memexia:title", .lit n.title⟩] else []) ++
   (match n.content with
    | some c => [⟨n.id, str "memexia:content", .lit c⟩]
    | none => []) ++
   n.tags.map (fun t => ⟨n.id, str "memexia:tag", .lit t⟩) ++
   [⟨n.id, str "memexia:createdAt", .lit n.createdAt⟩,
    ⟨n.id, str "memexia:updatedAt", .lit n.updatedAt⟩])

/-- `add_node`: insert the node's quads (no prior removal). -/
def addNodeQ (n : MNode) (s : List Quad) : List Quad := insertQuads (nodeQuads n) s

/-- `node_exists`: any quad with the id as subject. -/
def nodeExistsQ (id : Str) (s : List Quad) : Bool := s.any fun q => q.subj == id

/-- Every quad of a node has the node's id as subject. -/
theorem nodeQuads_subj {n : MNode} {q : Quad} (h : q ∈ nodeQuads n) : q.subj = n.id := by
  simp only [nodeQuads, List.mem_cons, List.mem_append, List.mem_map] at h
  rcases h with rfl | h
  · rfl
  rcases h with ((h | h) | h) | h
  · split at h <;> simp_all
  · split at h <;> simp_all
  · obtain ⟨t, _, rfl⟩ := h
    rfl
  · rcases h with rfl | h
    · rfl
    · simp_all

/-- The fourteen relation types of `storage/edge.rs`. -/
inductive MRel where
  | contains | partOf | instanceOf | derivesFrom | leadsTo | supports
  | contradicts | refines | references | relatedTo | analogousTo
  | precedes | follows | simultaneous
deriving DecidableEq

/-- The `Display` impl of `RelationType` (CamelCase). -/
def relDisplay : MRel → Str
  | .contains => str "Contains"
  | .partOf => str "PartOf"
  | .instanceOf => str "InstanceOf"
  | .derivesFrom => str "DerivesFrom"
  | .leadsTo => str "LeadsTo"
  | .supports => str "Supports"
  | .contradicts => str "Contradicts"
  | .refines => str "Refines"
  | .references => str "References"
  | .relatedTo => str "RelatedTo"
  | .analogousTo => str "AnalogousTo"
  | .precedes => str "Precedes"
  | .follows => str "Follows"
  | .simultaneous => str "Simultaneous"

/-- An edge record (`Edge` of `storage/edge.rs`; the `source` tag and the
creation timestamp play no role in any claim and are omitted). -/
structure MEdge where
  id : Str
  fromId : Str
  toId : Str
  rel : MRel
  strength : Rat
  confidence : Rat
  description : Option Str
deriving DecidableEq

/-- `Edge::new`: default strength 1.0, confidence 1.0, no description. -/
def edgeNew (id f t : Str) (r : MRel) : MEdge := ⟨id, f, t, r, 1, 1, none⟩

/-- `Edge::update_strength`: clamps into [0, 1]. -/
def updateStrength (e : MEdge) (v : Rat) : MEdge :=
  { e with strength := clampRust v 0 1 }

/-- `Edge::update_description`. -/
def updateDescription (e : MEdge) (d : Str) : MEdge := { e with description := some d }

/-- The single quad `add_edge` writes: subject `from`, predicate
`memexia:<Display relation>`, object the `to` IRI. -/
def edgeQuadOf (e : MEdge) : Quad :=
  ⟨e.fromId, str "memexia:" ++ relDisplay e.rel, .iri e.toId⟩

/-- `add_edge`: inserts the edge's quad (no validation of the record). -/
def addEdgeQ (e : MEdge) (s : List Quad) : List Quad := insertQuad (edgeQuadOf e) s

/-- `parse_relation_type` of `storage/oxigraph.rs`: lowercase, strip every
`memexia:`, then match the fixed names (snake_case accepted). -/
def parseRelationTypeOx (s : Str) : Option MRel :=
  let n := replaceAll (str "memexia:") [] (lowerStr s)
  if n = str "contains" then some .contains
  else if n = str "partof" ∨ n = str "part_of" then some .partOf
  else if n = str "instanceof" ∨ n = str "instance_of" then some .instanceOf
  else if n = str "derivesfrom" ∨ n = str "derives_from" then some .derivesFrom
  else if n = str "leadsto" ∨ n = str "leads_to" then some .leadsTo
  else if n = str "supports" then some .supports
  else if n = str "contradicts" then some .contradicts
  else if n = str "refines" then some .refines
  else if n = str "references" then some .references
  else if n = str "relatedto" ∨ n = str "related_to" then some .relatedTo
  else if n = str "analogousto" ∨ n = str "analogous_to" then some .analogousTo
  else if n = str "precedes" then some .precedes
  else if n = str "follows" then some .follows
  else if n = str "simultaneous" then some .simultaneous
  else none

/-! ## Wiki-link parsing (`core/parser/wiki_link.rs`) -/

/-- `parse_relation` of `wiki_link.rs`: lowercase, remove underscores, match
the canonical names; unknown names default to `RelatedTo`. -/
def parseRelationWiki (s : Str) : MRel :=
  let n := (lowerStr s).filter (· ≠ '_')
  if n = str "contains" then .contains
  else if n = str "partof" then .partOf
  else if n = str "instanceof" then .instanceOf
  else if n = str "derivesfrom" then .derivesFrom
  else if n = str "leadsto" then .leadsTo
  else if n = str "supports" then .supports
  else if n = str "contradicts" then .contradicts
  else if n = str "refines" then .refines
  else if n = str "references" then .references
  else if n = str "relatedto" then .relatedTo
  else if n = str "analogousto" then .analogousTo
  else if n = str "precedes" then .precedes
  else if n = str "follows" then .follows
  else if n = str "simultaneous" then .simultaneous
  else .relatedTo

/-- A parsed wiki link (`WikiLink`). -/
structure MWikiLink where
  target : Str
  rel : MRel
  strength : Rat
  description : Str
deriving DecidableEq

/-- `parse_link_str`: split on `|`; the trimmed first part is the target
(empty target drops the link); the second part, when present and non-empty,
is `relation[:strength[:description]]`, the strength clamped into [0, 1]. -/
def parseLinkStr (linkStr : Str) : Option MWikiLink :=
  let parts := splitChar '|' linkStr
  let target := trimStr (parts.headD [])
  if target = [] then none
  else
    let base : MWikiLink := ⟨target, .relatedTo, 1, []⟩
    if h2 : 1 < parts.length ∧ parts.getD 1 [] ≠ [] then
      let afterPipe := parts.getD 1 []
      match splitOnceChar ':' afterPipe with
      | some (relStr, afterColon) =>
        let rel := parseRelationWiki relStr
        match splitOnceChar ':' afterColon with
        | some (sStr, desc) =>
          let strength := match parseF64 sStr with
            | some v => clampRust v 0 1
            | none => 1
          some { base with rel := rel, strength := strength, description := desc }
        | none =>
          let strength := match parseF64 afterColon with
            | some v => clampRust v 0 1
            | none => 1
          some { base with rel := rel, strength := strength }
      | none => some { base with rel := parseRelationWiki afterPipe }
    else some base

/-- Characters allowed inside a bracket body by the wiki-link regex class
`[^]|]`. -/
def inClassA (c : Char) : Bool := c ≠ ']' && c ≠ '|'

/-- The length of a list after `dropWhile` never grows. -/
theorem length_dropWhile_le (p : Char → Bool) (l : Str) :
    (l.dropWhile p).length ≤ l.length := by
  induction l with
  | nil => simp
  | cons c t ih =>
    by_cases h : p c <;> simp [List.dropWhile, h] <;> omega

/-- The part of the wiki-link regex `\[\[([^]|]+(?:\|[^]|]+)?)\]\]` after the
two opening brackets, attempted at the head of the string; returns the
capture and the remaining input.  The character classes exclude both `]` and
`|`, so the greedy `+` runs are forced maximal: any shorter run leaves a
class character where the pattern demands `]` or `|`, hence backtracking can
never produce a different match. -/
def wikiMatchBody (rest : Str) : Option (Str × Str) :=
  let p1 := rest.takeWhile inClassA
  let r1 := rest.dropWhile inClassA
  if p1 = [] then none
  else if r1.take 2 = str "]]" then some (p1, r1.drop 2)
  else if r1.take 1 = str "|" then
    let r1x := r1.drop 1
    let p2 := r1x.takeWhile inClassA
    let r2 := r1x.dropWhile inClassA
    if p2 = [] then none
    else if r2.take 2 = str "]]" then some (p1 ++ '|' :: p2, r2.drop 2)
    else none
  else none

/-- One attempted match of the full wiki-link regex anchored at the head of
the string. -/
def wikiMatchAt (s : Str) : Option (Str × Str) :=
  if s.take 2 = str "[[" then wikiMatchBody (s.drop 2) else none

/-- A successful body match never returns more input than it was given. -/
theorem wikiMatchBody_le {rest cap r : Str} (h : wikiMatchBody rest = some (cap, r)) :
    r.length ≤ rest.length := by
  simp only [wikiMatchBody] at h
  have h1 := length_dropWhile_le inClassA rest
  have h2 := length_dropWhile_le inClassA ((rest.dropWhile inClassA).drop 1)
  split_ifs at h with hp hb1 hb2 hp2 hb3
  · injection h with h
    injection h with hcap hr
    subst hr
    simp only [List.length_drop]
    omega
  · injection h with h
    injection h with hcap hr
    subst hr
    simp only [List.length_drop, List.length_drop] at h2 ⊢
    omega

/-- A successful wiki-link match consumes at least one character. -/
theorem wikiMatchAt_shrinks {s cap rest : Str} (h : wikiMatchAt s = some (cap, rest)) :
    rest.length < s.length := by
  unfold wikiMatchAt at h
  split_ifs at h with ht
  have hlen : s.length ≥ 2 := by
    have := congrArg List.length ht
    simp only [List.length_take, str] at this
    simp at this
    omega
  have := wikiMatchBody_le h
  simp only [List.length_drop] at this
  omega

/-- Recursion core of `wikiCaptures`, on fuel.  By `wikiMatchAt_shrinks`
each step consumes at least one character and one unit of fuel, so with
`fuel ≥ s.length` the fuel-exhausted arm is unreachable. -/
def wikiCapturesAux : Nat → Str → List Str
  | _, [] => []
  | 0, _ => []
  | fuel + 1, c :: rest =>
    match wikiMatchAt (c :: rest) with
    | some (cap, r2) => cap :: wikiCapturesAux fuel r2
    | none => wikiCapturesAux fuel rest

/-- `parse_wiki_links` capture scanning: leftmost non-overlapping matches of
the wiki-link regex, in document order (`captures_iter`). -/
def wikiCaptures (s : Str) : List Str := wikiCapturesAux s.length s

/-- `parse_wiki_links`: parse every capture, dropping the failures. -/
def parseWikiLinks (content : Str) : List MWikiLink :=
  (wikiCaptures content).filterMap parseLinkStr

/-- One attempted match of the link-removal regex `\[\[[^\]]+\]\]` anchored
at the head of the string. -/
def remMatchAt (s : Str) : Option Str :=
  if s.take 2 = str "[[" then
    let rest := s.drop 2
    let p1 := rest.takeWhile (fun c => c ≠ ']')
    let r1 := rest.dropWhile (fun c => c ≠ ']')
    if p1 = [] then none
    else if r1.take 2 = str "]]" then some (r1.drop 2)
    else none
  else none

/-- A successful removal match consumes at least one character. -/
theorem remMatchAt_shrinks {s rest : Str} (h : remMatchAt s = some rest) :
    rest.length < s.length := by
  simp only [remMatchAt] at h
  split_ifs at h with ht hp hb
  have hlen : s.length ≥ 2 := by
    have := congrArg List.length ht
    simp only [List.length_take, str] at this
    simp at this
    omega
  have h1 := length_dropWhile_le (fun c => c ≠ ']') (s.drop 2)
  injection h with h
  subst h
  simp only [List.length_drop] at h1 ⊢
  omega

/-- Recursion core of `removeWikiLinks`, on fuel.  By `remMatchAt_shrinks`
each step consumes at least one character and one unit of fuel, so with
`fuel ≥ s.length` the fuel-exhausted arm is unreachable. -/
def removeWikiAux : Nat → Str → Str
  | _, [] => []
  | 0, s => s
  | fuel + 1, c :: rest =>
    match remMatchAt (c :: rest) with
    | some r2 => removeWikiAux fuel r2
    | none => c :: removeWikiAux fuel rest

/-- `remove_wiki_links`: every match of `\[\[[^\]]+\]\]` replaced by the
empty string. -/
def removeWikiLinks (s : Str) : Str := removeWikiAux s.length s

/-- `WikiLink::to_edge`: percent-encodes the target, builds the target URN
and the edge id `urn:memexia:edge:<from>-<encoded target>`, then applies the
non-default strength (clamped by `update_strength`) and description. -/
def wikiToEdge (l : MWikiLink) (fromId : Str) : MEdge :=
  let encoded := encodeIriComponent l.target
  let targetUrn := str "urn:memexia:file:" ++ encoded
  let edgeId := str "urn:memexia:edge:" ++ fromId ++ '-' :: encoded
  let e0 := edgeNew edgeId fromId targetUrn l.rel
  let e1 := if l.strength ≠ 1 then updateStrength e0 l.strength else e0
  if l.description ≠ [] then updateDescription e1 l.description else e1

/-! ## Indexer and commit graph writes (`core/indexer.rs`,
`core/repository.rs`) -/

/-- `Indexer::get_target_id`: a target already in URN form is used as is,
otherwise it is percent-encoded into a file URN. -/
def getTargetId (target : Str) : Str :=
  if startsWithStr (str "urn:memexia:") target then target
  else str "urn:memexia:file:" ++ encodeIriComponent target

/-- The per-link graph writes of `Indexer::index_file`: ensure the target
node exists (placeholder `Concept` titled with the raw link target), then
add the edge built by `WikiLink::to_edge`. -/
def indexLinkStep (fromId tNow : Str) (s : List Quad) (l : MWikiLink) : List Quad :=
  let tid := getTargetId l.target
  let s1 := if nodeExistsQ tid s then s else addNodeQ (mnodeNew tid .concept l.target tNow) s
  addEdgeQ (wikiToEdge l fromId) s1

/-- The graph writes of one `Indexer::index_file` call: add the document
node, then process each wiki link in order.  `tNow` is the RFC 3339 value of
`Utc::now()` during the call. -/
def indexFileQuads (nd : MNode) (links : List MWikiLink) (tNow : Str)
    (s : List Quad) : List Quad :=
  links.foldl (indexLinkStep nd.id tNow) (addNodeQ nd s)

/-- The per-link graph writes of `Repository::commit`: the placeholder id is
built by replacing spaces with underscores (no percent-encoding), while the
edge still comes from `WikiLink::to_edge`. -/
def commitLinkStep (fromId tNow : Str) (s : List Quad) (l : MWikiLink) : List Quad :=
  let tid := str "urn:memexia:file:" ++ replaceAll (str " ") (str "_") l.target
  let s1 := if nodeExistsQ tid s then s else addNodeQ (mnodeNew tid .concept l.target tNow) s
  addEdgeQ (wikiToEdge l fromId) s1

/-- The graph writes of `Repository::commit` for one staged file. -/
def commitFileQuads (nd : MNode) (links : List MWikiLink) (tNow : Str)
    (s : List Quad) : List Quad :=
  links.foldl (commitLinkStep nd.id tNow) (addNodeQ nd s)

/-- The node-id set in the sense of `list_nodes`: the distinct subjects with
the `urn:memexia:` scheme. -/
def listNodeIdSet (s : List Quad) : Finset Str :=
  ((s.filter fun q => startsWithStr (str "urn:memexia:") q.subj).map Quad.subj).toFinset

/-- A quad that `list_edges` treats as an edge: `memexia:` predicate, named
node object, predicate naming a relation. -/
def isEdgeQuad (q : Quad) : Bool :=
  startsWithStr (str "memexia:") q.pred &&
  (match q.obj with | .iri _ => true | .lit _ => false) &&
  (parseRelationTypeOx q.pred).isSome

/-- The edge quads of a store, as a set. -/
def edgeQuadSet (s : List Quad) : Finset Quad := (s.filter isEdgeQuad).toFinset

/-- `list_edges`: walk the store, build the id
`urn:memexia:edge:<subject>-<object>` for each `memexia:`-predicate quad with
a named-node object, skip ids already seen, and reconstruct an `Edge::new`
record (default strength, confidence, description) when the predicate parses
as a relation. -/
def listEdgesRec : List Quad → List Str → List MEdge
  | [], _ => []
  | q :: rest, seen =>
    if startsWithStr (str "memexia:") q.pred then
      match q.obj with
      | .iri o =>
        let eid := str "urn:memexia:edge:" ++ q.subj ++ '-' :: o
        if eid ∈ seen then listEdgesRec rest seen
        else
          match parseRelationTypeOx q.pred with
          | some r => edgeNew eid q.subj o r :: listEdgesRec rest (eid :: seen)
          | none => listEdgesRec rest (eid :: seen)
      | .lit _ => listEdgesRec rest seen
    else listEdgesRec rest seen

/-- `list_edges` of a store. -/
def listEdgesM (s : List Quad) : List MEdge := listEdgesRec s []

/-- Join segments with a separator character (Rust `[&str]::join`). -/
def joinSep (c : Char) : List Str → Str
  | [] => []
  | [x] => x
  | x :: xs => x ++ c :: joinSep c xs

/-- Decidable equality for `Except` results, used to evaluate the model's
fallible operations on concrete inputs. -/
instance exceptDecEq {e a : Type} [DecidableEq e] [DecidableEq a] :
    DecidableEq (Except e a) := fun x y =>
  match x, y with
  | .error e1, .error e2 => decidable_of_iff (e1 = e2) (by simp)
  | .error _, .ok _ => isFalse (by simp)
  | .ok _, .error _ => isFalse (by simp)
  | .ok v1, .ok v2 => decidable_of_iff (v1 = v2) (by simp)

/-- The edge-id prefix `urn:memexia:edge:`. -/
def edgeIdPre : Str := str "urn:memexia:edge:"

/-- `get_edge`: check the id prefix, split the suffix on `-`, take the first
part as the `from` IRI and rejoin the rest as the `to` IRI, then return the
first quad between them whose predicate parses as a relation, reconstructed
with `Edge::new`.  Invalid-format ids raise an error. -/
def getEdgeM (id : Str) (s : List Quad) : Except Unit (Option MEdge) :=
  if startsWithStr edgeIdPre id then
    let suffix := id.drop edgeIdPre.length
    let parts := splitChar '-' suffix
    if parts.length < 2 then .error ()
    else
      let f := parts.headD []
      let t := joinSep '-' parts.tail
      match s.find? (fun q =>
          q.subj == f && q.obj == Obj.iri t && (parseRelationTypeOx q.pred).isSome) with
      | some q => .ok (some (edgeNew id f t ((parseRelationTypeOx q.pred).getD .relatedTo)))
      | none => .ok none
  else .error ()

/-! ## `Edge::from_link` (`storage/edge.rs`) -/

/-- `Edge::parse_relation`: lowercase, then match English and Chinese
synonyms; unknown names give `none`. -/
def edgeParseRelation (s : Str) : Option MRel :=
  let n := lowerStr s
  if n = str "矛盾" ∨ n = str "contradicts" then some .contradicts
  else if n = str "属于" ∨ n = str "partof" ∨ n = str "part_of" then some .partOf
  else if n = str "包含" ∨ n = str "contains" then some .contains
  else if n = str "实例" ∨ n = str "instanceof" ∨ n = str "instance_of" then some .instanceOf
  else if n = str "推导" ∨ n = str "derivesfrom" ∨ n = str "derives_from" then some .derivesFrom
  else if n = str "导向" ∨ n = str "leadsto" ∨ n = str "leads_to" then some .leadsTo
  else if n = str "支持" ∨ n = str "supports" then some .supports
  else if n = str "精炼" ∨ n = str "refines" then some .refines
  else if n = str "引用" ∨ n = str "references" then some .references
  else if n = str "相关" ∨ n = str "relatedto" ∨ n = str "related_to" then some .relatedTo
  else if n = str "类比" ∨ n = str "analogousto" ∨ n = str "analogous_to" then some .analogousTo
  else if n = str "先于" ∨ n = str "precedes" then some .precedes
  else if n = str "后于" ∨ n = str "follows" then some .follows
  else if n = str "同时" ∨ n = str "simultaneous" then some .simultaneous
  else none

/-- `Edge::parse_link_text`: split `目标|类型:强度:描述` into target, relation
string, strength and description.  The strength is taken as parsed, with no
clamping; a failed parse keeps the default 1.0. -/
def parseLinkText (text : Str) : Str × Str × Rat × Str :=
  match splitOnceChar '|' text with
  | none => (text, [], 1, [])
  | some (target, afterPipe) =>
    match splitOnceChar ':' afterPipe with
    | none => (target, afterPipe, 1, [])
    | some (relStr, afterColon) =>
      match splitOnceChar ':' afterColon with
      | some (sStr, desc) => (target, relStr, (parseF64 sStr).getD 1, desc)
      | none => (target, relStr, (parseF64 afterColon).getD 1, [])

/-- `Edge::from_link`: edge id `urn:memexia:edge:<from>-<target>` (target not
encoded), target URN `urn:memexia:file:<target>`, relation defaulting to
`RelatedTo`, strength exactly as parsed, confidence 1.0. -/
def edgeFromLink (fromNodeId linkText : Str) : MEdge :=
  let p := parseLinkText linkText
  let target := p.1
  let relStr := p.2.1
  let strength := p.2.2.1
  let desc := p.2.2.2
  ⟨str "urn:memexia:edge:" ++ fromNodeId ++ '-' :: target,
   fromNodeId,
   str "urn:memexia:file:" ++ target,
   (edgeParseRelation relStr).getD .relatedTo,
   strength, 1,
   if desc ≠ [] then some desc else none⟩

/-! ## `ParsedDoc::to_node` (`core/parser.rs`) -/

/-- The backslash character. -/
def bsChar : Char := Char.ofNat 92

/-- Parsed frontmatter (`Frontmatter` of `core/parser/frontmatter.rs`,
restricted to the fields `to_node` reads). -/
structure MFrontmatter where
  title : Option Str
  ntypeF : MNodeType
  tagsF : List Str
  summary : Option Str
deriving DecidableEq

/-- A parsed document (`ParsedDoc`). -/
structure MParsedDoc where
  frontmatter : Option MFrontmatter
  wikiLinks : List MWikiLink
  tags : List Str
  content : Str
  title : Option Str
  fileName : Str
deriving DecidableEq

/-- `ParsedDoc::get_title`: frontmatter title, else extracted H1 title, else
the file stem (text before the first dot of the file name). -/
def getTitleD (d : MParsedDoc) : Str :=
  match d.frontmatter.bind (·.title) with
  | some t => t
  | none =>
    match d.title with
    | some t => t
    | none => (splitChar '.' d.fileName).headD d.fileName

/-- `ParsedDoc::get_node_type`: the frontmatter type, default `Concept`. -/
def getNodeTypeD (d : MParsedDoc) : MNodeType :=
  (d.frontmatter.map (·.ntypeF)).getD .concept

/-- First-occurrence deduplication.  `get_all_tags` collects tags into a
`HashSet` whose iteration order is unspecified; the model fixes insertion
order, which is immaterial to every claim (tag multisets agree as sets). -/
def dedupFirst (l : List Str) : List Str :=
  l.foldl (fun acc t => if t ∈ acc then acc else acc ++ [t]) []

/-- `ParsedDoc::get_all_tags`: frontmatter tags then content hashtags,
deduplicated. -/
def getAllTagsD (d : MParsedDoc) : List Str :=
  dedupFirst ((match d.frontmatter with | some fm => fm.tagsF | none => []) ++ d.tags)

/-- `ParsedDoc::file_name_to_id`: backslashes to slashes, percent-encode,
prefix with the file URN scheme. -/
def fileNameToId (fileName : Str) : Str :=
  str "urn:memexia:file:" ++
    encodeIriComponent (fileName.map fun c => if c = bsChar then '/' else c)

/-- `ParsedDoc::to_node`: build the node, set the content to the wiki-link
stripped body when that is non-blank, collect the tags, then replace the
content by the frontmatter summary when the summary is shorter than 200
bytes and the content is absent or longer than the summary. -/
def toNodeM (d : MParsedDoc) (tNow : Str) : MNode :=
  let base := mnodeNew (fileNameToId d.fileName) (getNodeTypeD d) (getTitleD d) tNow
  let content0 := removeWikiLinks d.content
  let c1 : Option Str := if trimStr content0 ≠ [] then some content0 else none
  let c2 : Option Str :=
    match d.frontmatter with
    | some fm =>
      match fm.summary with
      | some sm =>
        if c1.isNone || utf8Len (c1.getD []) > utf8Len sm then
          if utf8Len sm < 200 then some sm else c1
        else c1
      | none => c1
    | none => c1
  { base with content := c2, tags := getAllTagsD d }

/-! ## `WatchConfig` (`core/watch_config.rs`)

`matches_pattern` rewrites `**/` to `*`, converts the glob to a regex string
(`*` to `.*`, `?` to `.`, the metacharacters escaped) and searches with
`Regex::is_match`, which is unanchored.  The regex strings `glob_to_regex`
emits use only literals, escapes, `.` and postfix `*`, so the model parses
exactly that fragment and rejects malformed remainders the way `Regex::new`
does (yielding `false`). -/

/-- A regex atom of the emitted fragment. -/
inductive RAtom where
  | lit (c : Char)
  | dot
deriving DecidableEq

/-- A regex piece: one atom, or an atom under `*`. -/
inductive RPiece where
  | once (a : RAtom)
  | star (a : RAtom)
deriving DecidableEq

/-- The regex metacharacters `glob_to_regex` escapes. -/
def regexMetas : Str :=
  ['.', '+', '(', ')', '[', ']', Char.ofNat 123, Char.ofNat 125, '|', '^', '$']

/-- `glob_to_regex`: the regex string for a glob pattern. -/
def globToRegex (pattern : Str) : Str :=
  pattern.flatMap fun c =>
    if c = '*' then str ".*"
    else if c = '?' then ['.']
    else if regexMetas.contains c then [bsChar, c]
    else [c]

/-- Parse the emitted regex fragment: escapes, `.`, literals, postfix `*`.
A dangling escape or a misplaced `*` is a parse error. -/
def regexParse : Str → Option (List RPiece)
  | [] => some []
  | c :: rest =>
    if c = bsChar then
      match rest with
      | [] => none
      | d :: '*' :: '*' :: _ => none
      | d :: '*' :: r2 => (regexParse r2).map fun ps => RPiece.star (.lit d) :: ps
      | d :: r2 => (regexParse r2).map fun ps => RPiece.once (.lit d) :: ps
    else if c = '*' then none
    else
      let a : RAtom := if c = '.' then .dot else .lit c
      match rest with
      | '*' :: '*' :: _ => none
      | '*' :: r2 => (regexParse r2).map fun ps => RPiece.star a :: ps
      | r2 => (regexParse r2).map fun ps => RPiece.once a :: ps

/-- Does an atom match a character. -/
def atomMatch : RAtom → Char → Bool
  | .lit c, d => c = d
  | .dot, _ => true

/-- Recursion core of the anchored matcher, on fuel: each step consumes a
piece or a character together with one unit of fuel, so with
`fuel ≥ ps.length + s.length` the fuel-exhausted arm is unreachable. -/
def matchPiecesAux : Nat → List RPiece → Str → Bool
  | _, [], _ => true
  | 0, _, _ => false
  | fuel + 1, .once a :: ps, s =>
    match s with
    | [] => false
    | d :: rest => atomMatch a d && matchPiecesAux fuel ps rest
  | fuel + 1, .star a :: ps, s =>
    matchPiecesAux fuel ps s ||
    (match s with
     | [] => false
     | d :: rest => atomMatch a d && matchPiecesAux fuel (.star a :: ps) rest)

/-- Anchored regex match of a piece list against a prefix position: standard
semantics of concatenation and `*` (any number of repetitions). -/
def matchPieces (ps : List RPiece) (s : Str) : Bool :=
  matchPiecesAux (ps.length + s.length) ps s

/-- Unanchored search (`Regex::is_match`): a match starting anywhere. -/
def searchPieces (ps : List RPiece) : Str → Bool
  | [] => matchPieces ps []
  | c :: rest => matchPieces ps (c :: rest) || searchPieces ps rest

/-- `matches_pattern`. -/
def matchesPattern (pattern text : Str) : Bool :=
  let p := replaceAll (str "**/") (str "*") pattern
  if containsChar '*' p then
    match regexParse (globToRegex p) with
    | some ps => searchPieces ps text
    | none => false
  else p == text

/-- A watch configuration. -/
structure MWatchConfig where
  whitelist : List Str
  blacklist : List Str
deriving DecidableEq

/-- `WatchConfig::new`: the default whitelist and blacklist. -/
def watchConfigNew : MWatchConfig :=
  ⟨[str "*.md"],
   [str ".git/**/*", str ".memexia/**/*", str "*.tmp", str "*.bak",
    str ".DS_Store"]⟩

/-- `Path::file_name` followed by `to_string_lossy` and
`unwrap_or_default`: the last normal path component, or the empty string.
Path components drop empty and `.` segments; a trailing `..` has no file
name. -/
def fileNameOf (path : Str) : Str :=
  let segs := (splitChar '/' path).filter fun s => !(s == []) && !(s == str ".")
  match segs.getLast? with
  | none => []
  | some l => if l = str ".." then [] else l

/-- `WatchConfig::is_whitelisted`: some whitelist pattern matches the full
path or the file name. -/
def isWhitelisted (cfg : MWatchConfig) (path : Str) : Bool :=
  cfg.whitelist.any fun pat =>
    matchesPattern pat path || matchesPattern pat (fileNameOf path)

/-- `WatchConfig::is_blacklisted`: a pattern containing a path separator is
matched against the full path, a separator-free pattern against the file
name only. -/
def isBlacklisted (cfg : MWatchConfig) (path : Str) : Bool :=
  cfg.blacklist.any fun pat =>
    if containsChar '/' pat || containsChar bsChar pat then
      matchesPattern pat path
    else
      matchesPattern pat (fileNameOf path)

/-- `WatchConfig::is_allowed`: blacklisted paths are rejected; with an empty
whitelist everything else is accepted; otherwise the whitelist decides. -/
def isAllowed (cfg : MWatchConfig) (path : Str) : Bool :=
  if isBlacklisted cfg path then false
  else if cfg.whitelist.isEmpty then true
  else isWhitelisted cfg path

/-! ## Graph history (`vcs/graph_history.rs`)

The snapshot store is modelled as two association lists: path-to-content for
the N-Quads blobs (the filesystem, last write wins) and path-to-metadata for
the `.meta` sidecars (their JSON serialisation round-trips through serde and
is abstracted to the record itself). -/

/-- The blob filesystem. -/
abbrev BlobFS := List (Str × Str)

/-- `fs::write`: create or overwrite. -/
def fsWrite (p v : Str) (fs : BlobFS) : BlobFS := (p, v) :: fs

/-- `fs::read_to_string`, `none` when the path does not exist. -/
def fsRead (p : Str) (fs : BlobFS) : Option Str :=
  (fs.find? fun e => e.1 == p).map (·.2)

/-- Snapshot metadata (`SnapshotMetadata`): hash, byte size, timestamp. -/
structure SnapMeta where
  hash : Str
  size : Nat
  timestamp : Str
deriving DecidableEq

/-- The sidecar store. -/
abbrev MetaFS := List (Str × SnapMeta)

/-- The snapshot blob path `snapshots/<h[0:2]>/<h[2:]>` (the `split_at(2)`
of the source panics only on hashes shorter than two characters, which a
64-character SHA-256 hex hash never is). -/
def snapPath (hash : Str) : Str :=
  str "snapshots/" ++ hash.take 2 ++ '/' :: hash.drop 2

/-- The sidecar path: `with_extension("meta")` appends `.meta` to the
dot-free hash file name. -/
def metaPath (hash : Str) : Str := snapPath hash ++ str ".meta"

/-- `store_snapshot`: write the `.meta` sidecar, then the N-Quads blob. -/
def storeSnapshot (hash nquads tNow : Str) (fs : BlobFS) (ms : MetaFS) :
    BlobFS × MetaFS :=
  (fsWrite (snapPath hash) nquads fs,
   (metaPath hash, ⟨hash, (utf8Str nquads).length, tNow⟩) :: ms)

/-- `GraphHistory::snapshot` on an already-exported N-Quads string: hash the
bytes with `hash_content`, store, return the hash. -/
def snapshotG (nquads tNow : Str) (fs : BlobFS) (ms : MetaFS) :
    Str × BlobFS × MetaFS :=
  let hash := hashContent (utf8Str nquads)
  (hash, storeSnapshot hash nquads tNow fs ms)

/-- A returned snapshot (`GraphSnapshot`). -/
structure MGraphSnapshot where
  hash : Str
  nquads : Str
  timestamp : Str
deriving DecidableEq

/-- `GraphHistory::get_snapshot`: error when the blob is missing, else read
it and the sidecar (defaulting when the sidecar is absent). -/
def getSnapshotG (hash tNow : Str) (fs : BlobFS) (ms : MetaFS) :
    Except Unit MGraphSnapshot :=
  match fsRead (snapPath hash) fs with
  | none => .error ()
  | some nq =>
    let meta :=
      match (ms.find? fun e => e.1 == metaPath hash).map (·.2) with
      | some m => m
      | none => ⟨hash, (utf8Str nq).length, tNow⟩
    .ok ⟨meta.hash, nq, meta.timestamp⟩

/-- Strip one trailing carriage return (the `lines` terminator handling). -/
def stripCR (s : Str) : Str :=
  match s.getLast? with
  | some c => if c = crChar then s.dropLast else s
  | none => s

/-- Rust `str::lines`: split on newlines, drop the final empty piece of a
trailing newline, strip a carriage return from each line end. -/
def rustLines (s : Str) : List Str :=
  let parts := splitChar nlChar s
  let parts2 := if parts.getLast? = some [] then parts.dropLast else parts
  parts2.map stripCR

/-- One line of the commit-links log as `record` appends it. -/
def renderLink (c g : Str) : Str := c ++ str " -> " ++ g ++ [nlChar]

/-- `GraphHistory::record`: append one pairing line to the log content. -/
def recordLink (c g content : Str) : Str := content ++ renderLink c g

/-- `GraphHistory::get_commit_graph_hash`: scan the lines in order and
return the graph hash of the first line whose commit hash matches. -/
def getCommitGraphHash (content target : Str) : Option Str :=
  (rustLines content).findSome? fun line =>
    match splitOnceStr (str " -> ") line with
    | some (c, g) => if trimStr c = target then some (trimStr g) else none
    | none => none

/-! ## The Git engine (`vcs/git_engine.rs`)

The libgit2 dependency is embedded as a commit list with a head reference.
`Repository::head()` on a repository with no commits fails with
`ErrorCode::UnbornBranch`; `head_info` in the same source file documents and
matches exactly this behaviour. -/

/-- One Git commit record. -/
structure GitCommitR where
  message : Str
  author : Str
  tree : Str
  parents : List Nat
deriving DecidableEq

/-- Engine state: the commit list, the branch head (an index into it), and
the tree the index would write. -/
structure GitStateR where
  commits : List GitCommitR
  headIdx : Option Nat
  indexTree : Str
deriving DecidableEq

/-- libgit2 error codes the engine distinguishes. -/
inductive GitErr where
  | unbornBranch
  | notFound
deriving DecidableEq

/-- `self.repo.head()?.peel_to_commit()?`: the head commit index, failing
with `UnbornBranch` when no commit exists. -/
def repoHeadIdx (st : GitStateR) : Except GitErr Nat :=
  match st.headIdx with
  | none => .error .unbornBranch
  | some i => .ok i

/-- `GitEngine::amend`: read the HEAD commit (propagating its error), write
the index tree, create a new commit with the first parent of HEAD (or none),
and redirect the branch to it. -/
def gitAmend (msg author : Str) (st : GitStateR) : Except GitErr (Nat × GitStateR) := do
  let hi ← repoHeadIdx st
  match st.commits.get? hi with
  | none => .error .notFound
  | some hc =>
    let newParents := match hc.parents.head? with
      | some p => [p]
      | none => []
    let newC : GitCommitR := ⟨msg, author, st.indexTree, newParents⟩
    .ok (st.commits.length,
         { st with commits := st.commits ++ [newC],
                   headIdx := some st.commits.length })

/-- The state of a freshly initialised engine: no commits, unborn branch. -/
def gitInitState (tree : Str) : GitStateR := ⟨[], none, tree⟩

/-! ## General lemmas about the string operations -/

/-- Splitting a string of the form `t ++ sep :: rest` with `sep`-free `t`
peels off `t` as the first segment. -/
theorem splitChar_append (sep : Char) (t rest : Str) (h : ∀ x ∈ t, x ≠ sep) :
    splitChar sep (t ++ sep :: rest) = t :: splitChar sep rest := by
  induction t with
  | nil => simp [splitChar]
  | cons c t ih =>
    have hc : c ≠ sep := h c (by simp)
    have ih2 := ih fun x hx => h x (by simp [hx])
    simp only [List.cons_append, splitChar, if_neg hc]
    rw [show (t ++ sep :: rest : Str) = t.append (sep :: rest) from rfl] at ih2
    rw [ih2]

/-- Splitting a separator-free string yields the one-segment list. -/
theorem splitChar_no_sep (sep : Char) (s : Str) (h : ∀ x ∈ s, x ≠ sep) :
    splitChar sep s = [s] := by
  induction s with
  | nil => rfl
  | cons c t ih =>
    have hc : c ≠ sep := h c (by simp)
    have ih2 := ih fun x hx => h x (by simp [hx])
    simp only [splitChar, if_neg hc, ih2]

/-- Joining the split of a string restores the string. -/
theorem joinSep_splitChar (sep : Char) (s : Str) :
    joinSep sep (splitChar sep s) = s := by
  induction s with
  | nil => rfl
  | cons c t ih =>
    by_cases hc : c = sep
    · subst hc
      simp only [splitChar, if_pos rfl]
      rcases hP : splitChar c t with _ | ⟨p, ps⟩
      · exact absurd hP (splitChar_ne_nil c t)
      · rw [hP] at ih
        simp [joinSep, ih]
    · simp only [splitChar, if_neg hc]
      rcases hP : splitChar sep t with _ | ⟨p, ps⟩
      · exact absurd hP (splitChar_ne_nil sep t)
      · rw [hP] at ih
        cases ps with
        | nil => simpa [joinSep] using ih
        | cons p2 ps2 => simpa [joinSep] using ih

/-- A list is a boolean prefix of itself followed by anything. -/
theorem isPrefixOf_append (p r : Str) : p.isPrefixOf (p ++ r) = true := by
  induction p with
  | nil => simp [List.isPrefixOf]
  | cons c t ih => simp [List.isPrefixOf, ih]

/-- Finding a character that first occurs right after a `sep`-free prefix. -/
theorem splitOnceChar_append (sep : Char) (r s : Str) (h : ∀ x ∈ r, x ≠ sep) :
    splitOnceChar sep (r ++ sep :: s) = some (r, s) := by
  induction r with
  | nil => simp [splitOnceChar]
  | cons c t ih =>
    have hc : c ≠ sep := h c (by simp)
    have ih2 := ih fun x hx => h x (by simp [hx])
    simp only [List.cons_append, splitOnceChar, if_neg hc]
    rw [show (t ++ sep :: s : Str) = t.append (sep :: s) from rfl] at ih2
    rw [ih2]
    rfl

/-- A character absent from a string is never found. -/
theorem splitOnceChar_none (sep : Char) (s : Str) (h : ∀ x ∈ s, x ≠ sep) :
    splitOnceChar sep s = none := by
  induction s with
  | nil => rfl
  | cons c t ih =>
    have hc : c ≠ sep := h c (by simp)
    have ih2 := ih fun x hx => h x (by simp [hx])
    simp only [splitOnceChar, if_neg hc, ih2]
    rfl

/-- Splitting once on a pattern that begins right after a prefix free of the
pattern's first character. -/
theorem splitOnceStr_append (pat c g : Str) (hne : pat ≠ [])
    (h : ∀ x ∈ c, x ≠ pat.headD ' ') :
    splitOnceStr pat (c ++ (pat ++ g)) = some (c, g) := by
  induction c with
  | nil =>
    rcases pat with _ | ⟨p0, pt⟩
    · exact absurd rfl hne
    · have hpre : (p0 :: pt).isPrefixOf ([] ++ ((p0 :: pt) ++ g)) = true :=
        isPrefixOf_append (p0 :: pt) g
      have hdrop : ([] ++ ((p0 :: pt) ++ g) : Str).drop (p0 :: pt).length = g :=
        List.drop_left (p0 :: pt) g
      rcases he : ([] ++ ((p0 :: pt) ++ g) : Str) with _ | ⟨a, b⟩
      · simp at he
      · rw [← he]
        show splitOnceStr (p0 :: pt) ([] ++ ((p0 :: pt) ++ g)) = some ([], g)
        rw [he] at hpre hdrop ⊢
        simp only [splitOnceStr, hpre, if_true, hdrop]
  | cons x c ih =>
    have hx : x ≠ pat.headD ' ' := h x (by simp)
    have ih2 := ih fun y hy => h y (by simp [hy])
    rcases pat with _ | ⟨p0, pt⟩
    · exact absurd rfl hne
    · have hnpre : ¬ ((p0 :: pt).isPrefixOf (x :: (c ++ ((p0 :: pt) ++ g))) = true) := by
        simp only [List.isPrefixOf, Bool.and_eq_true, beq_iff_eq]
        rintro ⟨h1, -⟩
        exact hx h1.symm
      have hrw : ((x :: c) ++ ((p0 :: pt) ++ g) : Str) = x :: (c ++ ((p0 :: pt) ++ g)) := by
        simp
      rw [hrw]
      simp only [splitOnceStr, hnpre, if_false, ih2]
      rfl

/-- `dropWhile` of an everywhere-false predicate is the identity. -/
theorem dropWhile_all_false (p : Char → Bool) (s : Str) (h : ∀ x ∈ s, p x = false) :
    s.dropWhile p = s := by
  cases s with
  | nil => rfl
  | cons c t => simp [List.dropWhile, h c (by simp)]

/-- Trimming a whitespace-free string is the identity. -/
theorem trimStr_clean (s : Str) (h : ∀ x ∈ s, rustWs x = false) : trimStr s = s := by
  unfold trimStr
  rw [dropWhile_all_false rustWs s h,
      dropWhile_all_false rustWs s.reverse (fun x hx => h x (List.mem_reverse.mp hx)),
      List.reverse_reverse]

/-- Stripping the carriage return from a line that contains none. -/
theorem stripCR_clean (s : Str) (h : ∀ x ∈ s, x ≠ crChar) : stripCR s = s := by
  unfold stripCR
  rcases hl : s.getLast? with _ | c
  · rfl
  · have hc : c ∈ s := by
      rw [List.getLast?_eq_some_iff] at hl
      obtain ⟨t, rfl⟩ := hl
      simp
    show (if c = crChar then s.dropLast else s) = s
    rw [if_neg (h c hc)]

/-- Peeling the first line off `str::lines` of a newline-terminated line
followed by more content. -/
theorem rustLines_cons (a rest : Str) (h : ∀ x ∈ a, x ≠ nlChar) :
    rustLines (a ++ nlChar :: rest) = stripCR a :: rustLines rest := by
  unfold rustLines
  rw [splitChar_append nlChar a rest h]
  rcases hP : splitChar nlChar rest with _ | ⟨p, ps⟩
  · exact absurd hP (splitChar_ne_nil nlChar rest)
  · cases ps with
    | nil =>
      by_cases hp : p = []
      · subst hp
        simp [List.getLast?]
      · simp [List.getLast?_cons_cons, List.getLast?_singleton, hp]
    | cons p2 ps2 =>
      simp only [List.getLast?_cons_cons]
      split <;> simp [List.dropLast_cons₂]

/-- The full commit-links log content for a list of pairings, oldest
first (what repeated `record` calls produce on an empty log). -/
def renderLog (es : List (Str × Str)) : Str :=
  es.flatMap fun e => renderLink e.1 e.2

/-- Appending a pairing to a rendered log renders the extended list. -/
theorem recordLink_renderLog (c g : Str) (es : List (Str × Str)) :
    recordLink c g (renderLog es) = renderLog (es ++ [(c, g)]) := by
  simp [recordLink, renderLog]

/-- A string all of whose characters are non-whitespace (true of the hex
hashes the log stores). -/
abbrev cleanStr (s : Str) : Prop := ∀ x ∈ s, rustWs x = false

/-- Characters of a clean string are not the newline. -/
theorem cleanStr_ne_nl {s : Str} (h : cleanStr s) : ∀ x ∈ s, x ≠ nlChar := by
  intro x hx heq
  have := h x hx
  rw [heq] at this
  simp [rustWs] at this

/-- Characters of a clean string are not the carriage return. -/
theorem cleanStr_ne_cr {s : Str} (h : cleanStr s) : ∀ x ∈ s, x ≠ crChar := by
  intro x hx heq
  have := h x hx
  rw [heq] at this
  simp [rustWs] at this

/-- Characters of a clean string are not the space. -/
theorem cleanStr_ne_sp {s : Str} (h : cleanStr s) : ∀ x ∈ s, x ≠ ' ' := by
  intro x hx heq
  have := h x hx
  rw [heq] at this
  simp [rustWs] at this

/-- Characters of the separator `" -> "` are not the newline. -/
theorem sepArrow_ne_nl : ∀ x ∈ str " -> ", x ≠ nlChar := by decide

/-- Characters of the separator `" -> "` are not the carriage return. -/
theorem sepArrow_ne_cr : ∀ x ∈ str " -> ", x ≠ crChar := by decide

/-- Lookup in a rendered log of whitespace-free pairings returns the graph
hash of the first pairing whose commit hash matches. -/
theorem getCommitGraphHash_first (es : List (Str × Str)) (target : Str)
    (hc : ∀ e ∈ es, cleanStr e.1 ∧ cleanStr e.2) :
    getCommitGraphHash (renderLog es) target
      = (es.find? fun e => e.1 == target).map (·.2) := by
  induction es with
  | nil => rfl
  | cons e rest ih =>
    obtain ⟨hc1, hc2⟩ := hc e (by simp)
    have ihr := ih fun e2 he2 => hc e2 (by simp [he2])
    have hline : renderLog (e :: rest)
        = (e.1 ++ (str " -> " ++ e.2)) ++ nlChar :: renderLog rest := by
      simp [renderLog, renderLink]
    have hnl : ∀ x ∈ e.1 ++ (str " -> " ++ e.2), x ≠ nlChar := by
      intro x hx
      rcases List.mem_append.mp hx with hx1 | hx2
      · exact cleanStr_ne_nl hc1 x hx1
      · rcases List.mem_append.mp hx2 with hx3 | hx4
        · exact sepArrow_ne_nl x hx3
        · exact cleanStr_ne_nl hc2 x hx4
    have hcr : ∀ x ∈ e.1 ++ (str " -> " ++ e.2), x ≠ crChar := by
      intro x hx
      rcases List.mem_append.mp hx with hx1 | hx2
      · exact cleanStr_ne_cr hc1 x hx1
      · rcases List.mem_append.mp hx2 with hx3 | hx4
        · exact sepArrow_ne_cr x hx3
        · exact cleanStr_ne_cr hc2 x hx4
    have hsplit : splitOnceStr (str " -> ") (e.1 ++ (str " -> " ++ e.2))
        = some (e.1, e.2) :=
      splitOnceStr_append (str " -> ") e.1 e.2 (by decide)
        (fun x hx => cleanStr_ne_sp hc1 x hx)
    unfold getCommitGraphHash
    rw [hline, rustLines_cons _ _ hnl, stripCR_clean _ hcr, List.findSome?_cons]
    simp only [hsplit, trimStr_clean e.1 hc1, trimStr_clean e.2 hc2]
    by_cases heq : e.1 = target
    · rw [if_pos heq, List.find?_cons_of_pos _ (by simp [heq])]
      rfl
    · rw [if_neg heq, List.find?_cons_of_neg _ (by simp [heq])]
      exact ihr

/-- C5: the claim says lookup of a commit's graph hash returns the LAST
matching pairing of the commit-links log.  The code of
`get_commit_graph_hash` returns inside the scan loop on the first match:
with two pairings recorded for `c1`, the first graph hash is returned, not
the last. -/
theorem C5_counterexample :
    getCommitGraphHash
        (recordLink (str "c1") (str "g2") (recordLink (str "c1") (str "g1") []))
        (str "c1") = some (str "g1")
    ∧ str "g1" ≠ str "g2" := by
  constructor
  · decide
  · decide

/-- C5 (amended): when the commit-links log contains more than one pairing
for the same commit id, lookup scans the log in insertion order and returns
the FIRST matching pairing (the earliest pairing wins); `record` appends,
so the pairing list order is insertion order. -/
theorem C5_lookup_first_match (es : List (Str × Str)) (target : Str)
    (hc : ∀ e ∈ es, cleanStr e.1 ∧ cleanStr e.2) :
    getCommitGraphHash (renderLog es) target
      = (es.find? fun e => e.1 == target).map (·.2) :=
  getCommitGraphHash_first es target hc

/-- Witness for C5: a concrete two-entry log with a duplicated commit id;
lookup returns the first pairing's graph hash. -/
theorem C5_lookup_first_match_witness :
    getCommitGraphHash (renderLog [(str "c1", str "g1"), (str "c1", str "g2")]) (str "c1")
      = some (str "g1") := by
  rw [C5_lookup_first_match _ _ (by decide)]
  decide

/-- C6: the claim says `amend` on a repository with no prior commit succeeds
and creates a first commit.  `GitEngine::amend` first evaluates
`self.repo.head()?`, which on a commitless repository fails with
`UnbornBranch`, so `amend` returns that error instead of committing. -/
theorem C6_amend_unborn_errors (msg author tree : Str) :
    gitAmend msg author (gitInitState tree) = Except.error GitErr.unbornBranch := rfl

/-- The staged document node of the C2 scenario (a file `n.md` whose body
links to `[[a b]]`). -/
def c2DocNode : MNode := mnodeNew (str "urn:memexia:file:n.md") .concept (str "n") (str "T0")

/-- The single wiki link of the C2 scenario: target `a b` with default
relation, strength and description. -/
def c2Link : MWikiLink := ⟨str "a b", .relatedTo, 1, []⟩

/-- The graph after `Repository::commit` processes the file. -/
def c2Store : List Quad := commitFileQuads c2DocNode [c2Link] (str "T0") []

/-- C2: the claim says that during commit every edge's target node is made
to exist before the edge is written, for arbitrary link target text
including spaces.  `Repository::commit` builds the placeholder id with
`link.target.replace(" ", "_")` while `WikiLink::to_edge` percent-encodes
the target, so for the target `a b` the edge points at
`urn:memexia:file:a%20b` while the node created is
`urn:memexia:file:a_b` — the edge dangles. -/
theorem C2_commit_dangling_target :
    (wikiToEdge c2Link c2DocNode.id).toId = str "urn:memexia:file:a%20b"
    ∧ edgeQuadOf (wikiToEdge c2Link c2DocNode.id) ∈ c2Store
    ∧ nodeExistsQ (str "urn:memexia:file:a%20b") c2Store = false
    ∧ nodeExistsQ (str "urn:memexia:file:a_b") c2Store = true := by
  refine ⟨by decide, by decide, by decide, by decide⟩

/-- A one-edge store whose `from` IRI contains a hyphen (a file named
`my-note.md`; `-` is in the encoder's safe set, so it stays unencoded). -/
def hyphenStore : List Quad :=
  [⟨str "urn:memexia:file:my-note.md", str "memexia:supports",
    .iri (str "urn:memexia:file:B")⟩]

/-- A one-edge store whose `from` IRI contains no hyphen. -/
def noHyphenStore : List Quad :=
  [⟨str "urn:memexia:file:a.md", str "memexia:supports",
    .iri (str "urn:memexia:file:B")⟩]

/-- C9: `get_edge` recovers `(from, to)` by splitting the id suffix at the
FIRST `-`.  For a stored edge whose `from` IRI is hyphen-free the lookup
finds the edge; for the stored edge of `hyphenStore`, whose `from` contains
a hyphen, the lookup returns `Ok(None)` even though `list_edges` reports
exactly that edge under the looked-up id. -/
theorem C9_get_edge_split_at_first_hyphen :
    (∀ (st : List Quad) (f t : Str),
      (∀ x ∈ f, x ≠ '-') →
      (∃ q ∈ st, q.subj = f ∧ q.obj = Obj.iri t ∧ (parseRelationTypeOx q.pred).isSome) →
      ∃ r, getEdgeM (edgeIdPre ++ (f ++ '-' :: t)) st
        = .ok (some (edgeNew (edgeIdPre ++ (f ++ '-' :: t)) f t r)))
    ∧ getEdgeM (str "urn:memexia:edge:urn:memexia:file:my-note.md-urn:memexia:file:B")
        hyphenStore = .ok none
    ∧ listEdgesM hyphenStore
      = [edgeNew (str "urn:memexia:edge:urn:memexia:file:my-note.md-urn:memexia:file:B")
          (str "urn:memexia:file:my-note.md") (str "urn:memexia:file:B") .supports] := by
  refine ⟨?_, by decide, by decide⟩
  intro st f t hf hex
  have hpre : startsWithStr edgeIdPre (edgeIdPre ++ (f ++ '-' :: t)) = true :=
    isPrefixOf_append _ _
  have hdrop : (edgeIdPre ++ (f ++ '-' :: t)).drop edgeIdPre.length = f ++ '-' :: t :=
    List.drop_left _ _
  have hsplit : splitChar '-' (f ++ '-' :: t) = f :: splitChar '-' t :=
    splitChar_append '-' f t hf
  have hP := splitChar_ne_nil '-' t
  have hlen : ¬ ((f :: splitChar '-' t).length < 2) := by
    have : 0 < (splitChar '-' t).length := List.length_pos.mpr hP
    simp only [List.length_cons]
    omega
  simp only [getEdgeM, hpre, if_true, hdrop, hsplit, if_neg hlen, List.headD_cons,
    List.tail_cons, joinSep_splitChar]
  rcases hfind : st.find? (fun q =>
      q.subj == f && q.obj == Obj.iri t && (parseRelationTypeOx q.pred).isSome) with _ | q
  · exfalso
    obtain ⟨q0, hq0, hsub, hobj, hrel⟩ := hex
    have := List.find?_eq_none.mp hfind q0 hq0
    simp only [Bool.and_eq_true, beq_iff_eq] at this
    exact this ⟨⟨hsub, hobj⟩, hrel⟩
  · rw [hfind]
    exact ⟨(parseRelationTypeOx q.pred).getD .relatedTo, rfl⟩

/-- Witness for C9: the hyphen-free store, looked up under the id
`list_edges` would report. -/
theorem C9_get_edge_split_at_first_hyphen_witness :
    ∃ r, getEdgeM (edgeIdPre ++ (str "urn:memexia:file:a.md" ++ '-' :: str "urn:memexia:file:B"))
        noHyphenStore
      = .ok (some (edgeNew
          (edgeIdPre ++ (str "urn:memexia:file:a.md" ++ '-' :: str "urn:memexia:file:B"))
          (str "urn:memexia:file:a.md") (str "urn:memexia:file:B") r)) :=
  C9_get_edge_split_at_first_hyphen.1 noHyphenStore
    (str "urn:memexia:file:a.md") (str "urn:memexia:file:B")
    (by decide)
    ⟨⟨str "urn:memexia:file:a.md", str "memexia:supports",
      .iri (str "urn:memexia:file:B")⟩, by decide⟩

/-- C8: blacklist dominance and whitelist semantics of
`WatchConfig::is_allowed`: a blacklisted path is rejected regardless of the
whitelist; with an empty whitelist every non-blacklisted path is accepted;
with a non-empty whitelist a non-blacklisted path is accepted exactly when
some whitelist pattern matches the full path or its file name. -/
theorem C8_filter_semantics (cfg : MWatchConfig) (p : Str) :
    (isBlacklisted cfg p = true → isAllowed cfg p = false)
    ∧ (isBlacklisted cfg p = false → cfg.whitelist = [] → isAllowed cfg p = true)
    ∧ (isBlacklisted cfg p = false → cfg.whitelist ≠ [] →
        (isAllowed cfg p = true ↔
          ∃ pat ∈ cfg.whitelist,
            matchesPattern pat p = true ∨ matchesPattern pat (fileNameOf p) = true)) := by
  refine ⟨?_, ?_, ?_⟩
  · intro hb
    simp [isAllowed, hb]
  · intro hb hw
    simp [isAllowed, hb, hw]
  · intro hb hw
    have hne : cfg.whitelist.isEmpty = false := by
      rcases hl : cfg.whitelist with _ | _
      · exact absurd hl hw
      · rfl
    simp [isAllowed, hb, hne, isWhitelisted, List.any_eq_true]

/-- Witness for C8: with the default configuration, `.git/HEAD` matches the
blacklist pattern `.git/**/*`, so it is rejected. -/
theorem C8_filter_semantics_witness :
    isAllowed watchConfigNew (str ".git/HEAD") = false :=
  (C8_filter_semantics watchConfigNew (str ".git/HEAD")).1 (by decide)

/-- C10: `to_node` does not always keep the link-stripped body: when the
frontmatter summary is shorter than 200 bytes and the stripped body is
blank or longer than the summary, the summary becomes the content;
otherwise the content is the stripped body (absent when blank). -/
theorem C10_summary_overrides_content (d : MParsedDoc) (tNow : Str)
    (fm : MFrontmatter) (sm : Str)
    (hfm : d.frontmatter = some fm) (hsm : fm.summary = some sm) :
    (utf8Len sm < 200 ∧
        (trimStr (removeWikiLinks d.content) = [] ∨
          utf8Len (removeWikiLinks d.content) > utf8Len sm) →
      (toNodeM d tNow).content = some sm)
    ∧ (¬ (utf8Len sm < 200 ∧
        (trimStr (removeWikiLinks d.content) = [] ∨
          utf8Len (removeWikiLinks d.content) > utf8Len sm)) →
      (toNodeM d tNow).content =
        if trimStr (removeWikiLinks d.content) = [] then none
        else some (removeWikiLinks d.content)) := by
  constructor
  · rintro ⟨hslen, hcase⟩
    by_cases hblank : trimStr (removeWikiLinks d.content) = []
    · simp [toNodeM, hfm, hsm, hblank, hslen]
    · rcases hcase with hb | hlong
      · exact absurd hb hblank
      · simp [toNodeM, hfm, hsm, hblank, hslen, hlong]
  · intro hnot
    by_cases hblank : trimStr (removeWikiLinks d.content) = []
    · have hslen : ¬ utf8Len sm < 200 := fun hl => hnot ⟨hl, Or.inl hblank⟩
      simp [toNodeM, hfm, hsm, hblank, hslen]
    · by_cases hlong : utf8Len (removeWikiLinks d.content) > utf8Len sm
      · have hslen : ¬ utf8Len sm < 200 := fun hl => hnot ⟨hl, Or.inr hlong⟩
        simp [toNodeM, hfm, hsm, hblank, hslen, hlong]
      · simp [toNodeM, hfm, hsm, hblank, hlong]

/-- The C10 witness document: a summary `s` in the frontmatter and a body
consisting of one wiki link, whose stripped form is blank. -/
def c10Doc : MParsedDoc :=
  ⟨some ⟨none, .concept, [], some (str "s")⟩, [], [], str "[[x]]", none, str "t.md"⟩

/-- Witness for C10: the blank-body case, where the summary wins. -/
theorem C10_summary_overrides_content_witness :
    (toNodeM c10Doc (str "T")).content = some (str "s") :=
  (C10_summary_overrides_content c10Doc (str "T") _ _ rfl rfl).1 (by decide)

/-- C3: the claim says every edge accepted by `add_edge` satisfies the [0,1]
bounds in storage, including edges built by `Edge::from_link` from
out-of-range link text.  `Edge::parse_link_text` assigns the parsed strength
without clamping, and `add_edge` performs no validation: the edge record
built from `T|Supports:5` carries strength 5 and its quad is stored. -/
theorem C3_counterexample :
    (edgeFromLink (str "urn:memexia:file:a.md") (str "T|Supports:5")).strength = 5
    ∧ ¬ ((edgeFromLink (str "urn:memexia:file:a.md") (str "T|Supports:5")).strength ≤ 1)
    ∧ edgeQuadOf (edgeFromLink (str "urn:memexia:file:a.md") (str "T|Supports:5"))
        ∈ addEdgeQ (edgeFromLink (str "urn:memexia:file:a.md") (str "T|Supports:5")) [] := by
  have h : (edgeFromLink (str "urn:memexia:file:a.md") (str "T|Supports:5")).strength
      = decValue false ['5'] [] 0 := rfl
  have h5 : decValue false ['5'] [] 0 = 5 := by
    norm_num [decValue, show digitsVal ['5'] = 5 from by decide,
      show digitsVal ([] : Str) = 0 from by decide]
  refine ⟨h.trans h5, ?_, ?_⟩
  · rw [h, h5]
    norm_num
  · simp [addEdgeQ, insertQuad]

/-- Every edge record reconstructed by `list_edges` is an `Edge::new`
record, hence carries the default strength and confidence 1.0. -/
theorem listEdgesRec_defaults :
    ∀ (l : List Quad) (seen : List Str) (e : MEdge), e ∈ listEdgesRec l seen →
      e.strength = 1 ∧ e.confidence = 1 := by
  intro l
  induction l with
  | nil =>
    intro seen e h
    simp [listEdgesRec] at h
  | cons q rest ih =>
    intro seen e h
    unfold listEdgesRec at h
    by_cases h1 : startsWithStr (str "memexia:") q.pred = true
    · rw [if_pos h1] at h
      rcases hobj : q.obj with o | o
      · simp only [hobj] at h
        by_cases h2 : (str "urn:memexia:edge:" ++ q.subj ++ '-' :: o) ∈ seen
        · rw [if_pos h2] at h
          exact ih _ e h
        · rw [if_neg h2] at h
          rcases hrel : parseRelationTypeOx q.pred with _ | r
          · simp only [hrel] at h
            exact ih _ e h
          · simp only [hrel] at h
            rcases List.mem_cons.mp h with rfl | h3
            · exact ⟨rfl, rfl⟩
            · exact ih _ e h3
      · simp only [hobj] at h
        exact ih _ e h
    · rw [if_neg h1] at h
      exact ih _ e h

/-- C3 (amended): `add_edge` accepts edge records without validating
strength or confidence (and `Edge::from_link` does not clamp), but the RDF
store persists only the from/relation/to triple, so every edge
reconstructed from storage by `list_edges` carries the defaults 1.0 and
satisfies the [0,1] bounds. -/
theorem C3_stored_edges_in_range (st : List Quad) (e : MEdge)
    (h : e ∈ listEdgesM st) :
    e.strength = 1 ∧ e.confidence = 1 ∧
    0 ≤ e.strength ∧ e.strength ≤ 1 ∧ 0 ≤ e.confidence ∧ e.confidence ≤ 1 := by
  obtain ⟨hs, hc⟩ := listEdgesRec_defaults st [] e h
  rw [hs, hc]
  norm_num

/-- Witness for C3: the single reconstructed edge of `hyphenStore`. -/
theorem C3_stored_edges_in_range_witness :
    (edgeNew (str "urn:memexia:edge:urn:memexia:file:my-note.md-urn:memexia:file:B")
        (str "urn:memexia:file:my-note.md") (str "urn:memexia:file:B")
        MRel.supports).strength = 1 := by
  have h := C3_stored_edges_in_range hyphenStore
    (edgeNew (str "urn:memexia:edge:urn:memexia:file:my-note.md-urn:memexia:file:B")
      (str "urn:memexia:file:my-note.md") (str "urn:memexia:file:B") MRel.supports)
    (by decide)
  exact h.1

/-- C7: wiki-link strength clamping.  For every link written as
`target|relation:strength` AND for every link written as
`target|relation:strength:description` whose strength field parses as a
number `v`, the parsed link's strength is `v` clamped into [0, 1] (in the
description case the description is also kept verbatim); in particular the
S6 scenario `[[T|Supports:-0.5]][[T|Supports:1.5]]` parses to two links
with strengths 0.0 and 1.0. -/
theorem C7_strength_clamped :
    (∀ (t r sv : Str) (v : Rat),
      (∀ x ∈ t, x ≠ '|') → trimStr t ≠ [] →
      (∀ x ∈ r, x ≠ '|') → (∀ x ∈ r, x ≠ ':') →
      (∀ x ∈ sv, x ≠ '|') → (∀ x ∈ sv, x ≠ ':') →
      parseF64 sv = some v →
      (parseLinkStr (t ++ '|' :: (r ++ ':' :: sv))).map (·.strength)
        = some (clampRust v 0 1))
    ∧ (∀ (t r sv d : Str) (v : Rat),
      (∀ x ∈ t, x ≠ '|') → trimStr t ≠ [] →
      (∀ x ∈ r, x ≠ '|') → (∀ x ∈ r, x ≠ ':') →
      (∀ x ∈ sv, x ≠ '|') → (∀ x ∈ sv, x ≠ ':') →
      (∀ x ∈ d, x ≠ '|') →
      parseF64 sv = some v →
      (parseLinkStr (t ++ '|' :: (r ++ ':' :: (sv ++ ':' :: d)))).map
          (fun l => (l.strength, l.description))
        = some (clampRust v 0 1, d))
    ∧ (parseWikiLinks (str "[[T|Supports:-0.5]][[T|Supports:1.5]]")).map (·.strength)
        = [0, 1] := by
  refine ⟨?_, ?_, ?_⟩
  · intro t r sv v ht htr hr1 hr2 hs1 hs2 hv
    have hall : ∀ x ∈ r ++ ':' :: sv, x ≠ '|' := by
      intro x hx
      rcases List.mem_append.mp hx with hxr | hxc
      · exact hr1 x hxr
      · rcases List.mem_cons.mp hxc with rfl | hxs
        · decide
        · exact hs1 x hxs
    have hsp1 : splitChar '|' (t ++ '|' :: (r ++ ':' :: sv))
        = t :: splitChar '|' (r ++ ':' :: sv) := splitChar_append '|' t _ ht
    have hsp2 : splitChar '|' (r ++ ':' :: sv) = [r ++ ':' :: sv] :=
      splitChar_no_sep '|' _ hall
    have hco : splitOnceChar ':' (r ++ ':' :: sv) = some (r, sv) :=
      splitOnceChar_append ':' r sv hr2
    have hcn : splitOnceChar ':' sv = none := splitOnceChar_none ':' sv hs2
    have hne2 : (r ++ ':' :: sv : Str) ≠ [] := by simp
    simp only [parseLinkStr, hsp1, hsp2, List.headD_cons]
    rw [if_neg htr, dif_pos ⟨by simp, by simpa using hne2⟩]
    simp only [List.getD_cons_succ, List.getD_cons_zero, hco, hcn, hv]
    rfl
  · intro t r sv d v ht htr hr1 hr2 hs1 hs2 hd hv
    have hall : ∀ x ∈ r ++ ':' :: (sv ++ ':' :: d), x ≠ '|' := by
      intro x hx
      rcases List.mem_append.mp hx with hxr | hxc
      · exact hr1 x hxr
      · rcases List.mem_cons.mp hxc with rfl | hxs
        · decide
        · rcases List.mem_append.mp hxs with hxs1 | hxs2
          · exact hs1 x hxs1
          · rcases List.mem_cons.mp hxs2 with rfl | hxd
            · decide
            · exact hd x hxd
    have hsp1 : splitChar '|' (t ++ '|' :: (r ++ ':' :: (sv ++ ':' :: d)))
        = t :: splitChar '|' (r ++ ':' :: (sv ++ ':' :: d)) :=
      splitChar_append '|' t _ ht
    have hsp2 : splitChar '|' (r ++ ':' :: (sv ++ ':' :: d))
        = [r ++ ':' :: (sv ++ ':' :: d)] := splitChar_no_sep '|' _ hall
    have hco : splitOnceChar ':' (r ++ ':' :: (sv ++ ':' :: d))
        = some (r, sv ++ ':' :: d) := splitOnceChar_append ':' r _ hr2
    have hco2 : splitOnceChar ':' (sv ++ ':' :: d) = some (sv, d) :=
      splitOnceChar_append ':' sv d hs2
    have hne2 : (r ++ ':' :: (sv ++ ':' :: d) : Str) ≠ [] := by simp
    simp only [parseLinkStr, hsp1, hsp2, List.headD_cons]
    rw [if_neg htr, dif_pos ⟨by simp, by simpa using hne2⟩]
    simp only [List.getD_cons_succ, List.getD_cons_zero, hco, hco2, hv]
    rfl
  · have hcap : (parseWikiLinks (str "[[T|Supports:-0.5]][[T|Supports:1.5]]")).map (·.strength)
        = [clampRust (decValue true ['0'] ['5'] 0) 0 1,
           clampRust (decValue false ['1'] ['5'] 0) 0 1] := rfl
    have hneg : clampRust (decValue true ['0'] ['5'] 0) 0 1 = 0 := by
      rw [show decValue true ['0'] ['5'] 0 = -(1/2 : Rat) from by
        norm_num [decValue, show digitsVal ['5'] = 5 from by decide,
          show digitsVal ['0'] = 0 from by decide]]
      rw [clampRust, if_pos (by norm_num)]
    have hpos : clampRust (decValue false ['1'] ['5'] 0) 0 1 = 1 := by
      rw [show decValue false ['1'] ['5'] 0 = (3/2 : Rat) from by
        norm_num [decValue, show digitsVal ['5'] = 5 from by decide,
          show digitsVal ['1'] = 1 from by decide]]
      rw [clampRust, if_neg (by norm_num), if_pos (by norm_num)]
    rw [hcap, hneg, hpos]

/-- Witness for C7: the general clamping theorem applied to the first S6
link `T|Supports:-0.5` (bare-strength branch) and to the
description-carrying link `T|Supports:1.5:note` (description branch). -/
theorem C7_strength_clamped_witness :
    (parseLinkStr (str "T" ++ '|' :: (str "Supports" ++ ':' :: str "-0.5"))).map (·.strength)
      = some (clampRust (decValue true ['0'] ['5'] 0) 0 1)
    ∧ (parseLinkStr (str "T" ++ '|' ::
          (str "Supports" ++ ':' :: (str "1.5" ++ ':' :: str "note")))).map
        (fun l => (l.strength, l.description))
      = some (clampRust (decValue false ['1'] ['5'] 0) 0 1, str "note") :=
  ⟨C7_strength_clamped.1 (str "T") (str "Supports") (str "-0.5")
    (decValue true ['0'] ['5'] 0)
    (by decide) (by decide) (by decide) (by decide) (by decide) (by decide) rfl,
   C7_strength_clamped.2.1 (str "T") (str "Supports") (str "1.5") (str "note")
    (decValue false ['1'] ['5'] 0)
    (by decide) (by decide) (by decide) (by decide) (by decide) (by decide)
    (by decide) rfl⟩

/-- Reading a path straight after writing it returns the written content. -/
theorem fsRead_fsWrite_self (p v : Str) (fs : BlobFS) :
    fsRead p (fsWrite p v fs) = some v := by
  simp [fsRead, fsWrite, List.find?_cons_of_pos]

/-- C4: the hash returned by `snapshot` is the lowercase hex SHA-256 of the
exported N-Quads bytes (64 characters, so the `split_at(2)` pathing is
safe), and `get_snapshot` on that hash returns a snapshot holding exactly
the stored N-Quads — in particular with the same set of lines. -/
theorem C4_snapshot_roundtrip (nquads tNow t2 : Str) (fs : BlobFS) (ms : MetaFS) :
    (snapshotG nquads tNow fs ms).1 = hexEncode (sha256Bytes (utf8Str nquads))
    ∧ (snapshotG nquads tNow fs ms).1.length = 64
    ∧ ∃ snap : MGraphSnapshot,
        getSnapshotG (snapshotG nquads tNow fs ms).1 t2
          (snapshotG nquads tNow fs ms).2.1 (snapshotG nquads tNow fs ms).2.2 = .ok snap
        ∧ snap.nquads = nquads
        ∧ snap.hash = (snapshotG nquads tNow fs ms).1
        ∧ (rustLines snap.nquads).toFinset = (rustLines nquads).toFinset := by
  refine ⟨rfl, hashContent_length _,
    ⟨⟨hashContent (utf8Str nquads), nquads, tNow⟩, ?_, rfl, rfl, rfl⟩⟩
  simp only [snapshotG, storeSnapshot, getSnapshotG]
  rw [fsRead_fsWrite_self]
  simp [List.find?_cons_of_pos]

/-- Some quad of the store has the given subject (the property
`node_exists` decides). -/
def hasSubj (s : List Quad) (id : Str) : Prop := ∃ q ∈ s, q.subj = id

theorem nodeExistsQ_iff (id : Str) (s : List Quad) :
    nodeExistsQ id s = true ↔ hasSubj s id := by
  simp [nodeExistsQ, hasSubj, List.any_eq_true]

/-- The store only grows under one link step. -/
theorem mem_indexLinkStep_of_mem {q : Quad} {s : List Quad} (f tn : Str)
    (l : MWikiLink) (h : q ∈ s) : q ∈ indexLinkStep f tn s l := by
  unfold indexLinkStep addEdgeQ
  apply mem_insertQuad.mpr
  left
  split
  · exact h
  · exact mem_insertQuads.mpr (Or.inl h)

/-- The store only grows under the link fold. -/
theorem mem_indexLinks_of_mem (f tn : Str) (links : List MWikiLink) :
    ∀ {q : Quad} {s : List Quad}, q ∈ s → q ∈ links.foldl (indexLinkStep f tn) s := by
  induction links with
  | nil => intro q s h; exact h
  | cons l rest ih =>
    intro q s h
    exact ih (mem_indexLinkStep_of_mem f tn l h)

/-- `add_node` always leaves a quad whose subject is the node id. -/
theorem hasSubj_addNodeQ_self (n : MNode) (s : List Quad) : hasSubj (addNodeQ n s) n.id :=
  ⟨⟨n.id, str "rdf:type", .iri (nodeTypeIri n.ntype)⟩,
   mem_insertQuads.mpr (Or.inr (by simp [nodeQuads])), rfl⟩

/-- After the link fold, every processed link has its target subject in the
store and its edge quad stored. -/
theorem indexLinks_post (f tn : Str) (links : List MWikiLink) :
    ∀ (s : List Quad) (l : MWikiLink), l ∈ links →
      hasSubj (links.foldl (indexLinkStep f tn) s) (getTargetId l.target)
      ∧ edgeQuadOf (wikiToEdge l f) ∈ links.foldl (indexLinkStep f tn) s := by
  induction links with
  | nil =>
    intro s l h
    simp at h
  | cons l0 rest ih =>
    intro s l hl
    rcases List.mem_cons.mp hl with rfl | hmem
    · have hstep1 : hasSubj (indexLinkStep f tn s l) (getTargetId l.target) := by
        unfold indexLinkStep addEdgeQ
        have hbase : hasSubj (if nodeExistsQ (getTargetId l.target) s then s
            else addNodeQ (mnodeNew (getTargetId l.target) .concept l.target tn) s)
            (getTargetId l.target) := by
          split
          · rename_i hex
            exact (nodeExistsQ_iff _ _).mp hex
          · exact hasSubj_addNodeQ_self (mnodeNew (getTargetId l.target) .concept l.target tn) s
        obtain ⟨w, hw, hws⟩ := hbase
        exact ⟨w, mem_insertQuad.mpr (Or.inl hw), hws⟩
      have hstep2 : edgeQuadOf (wikiToEdge l f) ∈ indexLinkStep f tn s l := by
        unfold indexLinkStep addEdgeQ
        exact mem_insertQuad.mpr (Or.inr rfl)
      constructor
      · obtain ⟨w, hw, hws⟩ := hstep1
        exact ⟨w, mem_indexLinks_of_mem f tn rest hw, hws⟩
      · exact mem_indexLinks_of_mem f tn rest hstep2
    · exact ih _ l hmem

/-- The link fold is the identity on a store that already holds every
target subject and every edge quad. -/
theorem indexLinks_id_of_present (f tn : Str) (links : List MWikiLink) :
    ∀ (s : List Quad),
      (∀ l ∈ links, hasSubj s (getTargetId l.target)) →
      (∀ l ∈ links, edgeQuadOf (wikiToEdge l f) ∈ s) →
      links.foldl (indexLinkStep f tn) s = s := by
  induction links with
  | nil =>
    intro s _ _
    rfl
  | cons l0 rest ih =>
    intro s h1 h2
    have hstep : indexLinkStep f tn s l0 = s := by
      simp only [indexLinkStep, addEdgeQ]
      rw [if_pos ((nodeExistsQ_iff _ _).mpr (h1 l0 (by simp)))]
      exact insertQuad_of_mem (h2 l0 (by simp))
    rw [List.foldl_cons, hstep]
    exact ih s (fun l hl => h1 l (by simp [hl])) (fun l hl => h2 l (by simp [hl]))

/-- Inserting a quad list appends some sublist of it. -/
theorem insertQuads_append_sub :
    ∀ (qs s : List Quad), ∃ ts, insertQuads qs s = s ++ ts ∧ ∀ a ∈ ts, a ∈ qs := by
  intro qs
  induction qs with
  | nil =>
    intro s
    exact ⟨[], by simp [insertQuads], by simp⟩
  | cons q rest ih =>
    intro s
    have h0 : ∃ t0 : List Quad, insertQuad q s = s ++ t0 ∧ ∀ a ∈ t0, a = q := by
      unfold insertQuad
      split
      · exact ⟨[], by simp, by simp⟩
      · exact ⟨[q], rfl, by simp⟩
    obtain ⟨t0, ht0, ht0m⟩ := h0
    obtain ⟨ts, hts, htsm⟩ := ih (s ++ t0)
    refine ⟨t0 ++ ts, ?_, ?_⟩
    · simp only [insertQuads, List.foldl_cons] at hts ⊢
      rw [ht0, hts, List.append_assoc]
    · intro a ha
      rcases List.mem_append.mp ha with ha1 | ha2
      · simp [ht0m a ha1]
      · simp [htsm a ha2]

/-- Membership in the `list_nodes` id set. -/
theorem mem_listNodeIdSet {s : List Quad} {x : Str} :
    x ∈ listNodeIdSet s ↔
      ∃ q ∈ s, startsWithStr (str "urn:memexia:") q.subj = true ∧ q.subj = x := by
  simp only [listNodeIdSet, List.mem_toFinset, List.mem_map, List.mem_filter]
  constructor
  · rintro ⟨q, ⟨hq, hp⟩, rfl⟩
    exact ⟨q, hq, hp, rfl⟩
  · rintro ⟨q, hq, hp, rfl⟩
    exact ⟨q, ⟨hq, hp⟩, rfl⟩

/-- `add_node` does not change the node-id set when the id is already
present as a subject. -/
theorem listNodeIdSet_addNodeQ (n : MNode) (s : List Quad) (h : hasSubj s n.id) :
    listNodeIdSet (addNodeQ n s) = listNodeIdSet s := by
  obtain ⟨ts, hts, htsm⟩ := insertQuads_append_sub (nodeQuads n) s
  unfold addNodeQ
  rw [hts]
  apply Finset.ext
  intro x
  rw [mem_listNodeIdSet, mem_listNodeIdSet]
  constructor
  · rintro ⟨q, hq, hpre, hsub⟩
    rcases List.mem_append.mp hq with hq1 | hq2
    · exact ⟨q, hq1, hpre, hsub⟩
    · have hqn : q.subj = n.id := nodeQuads_subj (htsm q hq2)
      obtain ⟨q0, hq0, hq0s⟩ := h
      refine ⟨q0, hq0, ?_, ?_⟩
      · rw [hq0s, ← hqn]
        exact hpre
      · rw [hq0s, ← hqn]
        exact hsub
  · rintro ⟨q, hq, hpre, hsub⟩
    exact ⟨q, List.mem_append.mpr (Or.inl hq), hpre, hsub⟩

/-- Every quad written by `add_node` is the `rdf:type` quad or has a
literal object. -/
theorem nodeQuads_shape (n : MNode) : ∀ q ∈ nodeQuads n,
    q.pred = str "rdf:type" ∨ ∃ v, q.obj = Obj.lit v := by
  intro q hq
  simp only [nodeQuads, List.mem_cons, List.mem_append, List.mem_map] at hq
  rcases hq with rfl | hq
  · exact Or.inl rfl
  rcases hq with ((h1 | h2) | h3) | h4
  · split at h1
    · simp only [List.mem_singleton] at h1
      subst h1
      exact Or.inr ⟨_, rfl⟩
    · simp at h1
  · rcases hcont : n.content with _ | c
    · rw [hcont] at h2
      simp at h2
    · rw [hcont] at h2
      simp only [List.mem_singleton] at h2
      subst h2
      exact Or.inr ⟨_, rfl⟩
  · obtain ⟨t, _, rfl⟩ := h3
    exact Or.inr ⟨_, rfl⟩
  · rcases h4 with rfl | h5
    · exact Or.inr ⟨_, rfl⟩
    · rcases h5 with rfl | h6
      · exact Or.inr ⟨_, rfl⟩
      · exact absurd h6 (List.not_mem_nil q)

/-- No quad written by `add_node` is an edge quad: the type quad's predicate
is `rdf:type`, and every other quad has a literal object. -/
theorem isEdgeQuad_nodeQuads (n : MNode) : ∀ q ∈ nodeQuads n, isEdgeQuad q = false := by
  intro q hq
  rcases nodeQuads_shape n q hq with hp | ⟨v, ho⟩
  · simp [isEdgeQuad, hp,
      show startsWithStr (str "memexia:") (str "rdf:type") = false from by decide]
  · simp [isEdgeQuad, ho]

/-- `add_node` never changes the edge-quad set. -/
theorem edgeQuadSet_addNodeQ (n : MNode) (s : List Quad) :
    edgeQuadSet (addNodeQ n s) = edgeQuadSet s := by
  obtain ⟨ts, hts, htsm⟩ := insertQuads_append_sub (nodeQuads n) s
  unfold addNodeQ
  rw [hts]
  unfold edgeQuadSet
  rw [List.filter_append]
  have hnil : ts.filter isEdgeQuad = [] := by
    rw [List.filter_eq_nil_iff]
    intro a ha
    simp [isEdgeQuad_nodeQuads n a (htsm a ha)]
  rw [hnil, List.append_nil]

/-- C1: the claim says `add_node` on an already-present node id overwrites
the stored node rather than accumulating quads.  `add_node` only inserts:
re-adding the same id with a different title leaves the old title quad in
the store, which the overwrite semantics would have removed. -/
theorem C1_counterexample :
    ((⟨str "urn:memexia:file:a.md", str "memexia:title", .lit (str "Old")⟩ : Quad) ∈
      addNodeQ (mnodeNew (str "urn:memexia:file:a.md") .concept (str "New") (str "T2"))
        (addNodeQ (mnodeNew (str "urn:memexia:file:a.md") .concept (str "Old") (str "T1")) []))
    ∧ ((⟨str "urn:memexia:file:a.md", str "memexia:title", .lit (str "Old")⟩ : Quad) ∉
      addNodeQ (mnodeNew (str "urn:memexia:file:a.md") .concept (str "New") (str "T2")) []) := by
  constructor
  · decide
  · decide

/-- C1 (amended): two consecutive `index_file(p)` calls produce a graph
with the same node-id set and the same edge-quad set as a single call, and
re-adding an identical node record is a no-op; but `add_node` is
insert-only, so a node re-added with different field values (such as the
fresh timestamps of the second call) accumulates additional quads instead
of being overwritten. -/
theorem C1_index_idempotent_sets (d : MParsedDoc) (t1 t2 : Str) (s : List Quad) :
    listNodeIdSet (indexFileQuads (toNodeM d t2) d.wikiLinks t2
        (indexFileQuads (toNodeM d t1) d.wikiLinks t1 s))
      = listNodeIdSet (indexFileQuads (toNodeM d t1) d.wikiLinks t1 s)
    ∧ edgeQuadSet (indexFileQuads (toNodeM d t2) d.wikiLinks t2
        (indexFileQuads (toNodeM d t1) d.wikiLinks t1 s))
      = edgeQuadSet (indexFileQuads (toNodeM d t1) d.wikiLinks t1 s)
    ∧ (∀ (n : MNode) (s2 : List Quad), addNodeQ n (addNodeQ n s2) = addNodeQ n s2) := by
  have hid : (toNodeM d t2).id = (toNodeM d t1).id := rfl
  have hpost := indexLinks_post (toNodeM d t1).id t1 d.wikiLinks
    (addNodeQ (toNodeM d t1) s)
  have hcollapse : indexFileQuads (toNodeM d t2) d.wikiLinks t2
      (indexFileQuads (toNodeM d t1) d.wikiLinks t1 s)
      = addNodeQ (toNodeM d t2) (indexFileQuads (toNodeM d t1) d.wikiLinks t1 s) := by
    show d.wikiLinks.foldl (indexLinkStep (toNodeM d t2).id t2) _ = _
    rw [hid]
    apply indexLinks_id_of_present
    · intro l hl
      obtain ⟨w, hw, hws⟩ := (hpost l hl).1
      exact ⟨w, mem_insertQuads.mpr (Or.inl hw), hws⟩
    · intro l hl
      exact mem_insertQuads.mpr (Or.inl (hpost l hl).2)
  rw [hcollapse]
  refine ⟨?_, edgeQuadSet_addNodeQ _ _, ?_⟩
  · apply listNodeIdSet_addNodeQ
    rw [hid]
    obtain ⟨w, hw, hws⟩ := hasSubj_addNodeQ_self (toNodeM d t1) s
    exact ⟨w, mem_indexLinks_of_mem _ _ _ hw, hws⟩
  · intro n s2
    apply insertQuads_of_subset
    intro q hq
    exact mem_insertQuads.mpr (Or.inr hq)
